import Mathlib

/-!
Verification development for the FER reply tool's information-extraction
core (`app/core/fer_parser.py`, `claims_parser.py`, `reply_generator.py`,
`prior_art_parser.py`).  Python strings are embedded as `List Char`; each
Python helper is translated into an executable Lean function, and the
spec's claims about those helpers are proved or refuted below.

Conventions:
* `re.sub`/`re.finditer` calls are translated as explicit left-to-right
  scanners with the same non-overlapping, leftmost-match semantics.
* Functions whose recursion is not structural take an explicit fuel
  argument (initialised to the input length, which the scan never
  exceeds), so every definition evaluates by kernel reduction.
* Python whitespace (`str.strip`, regex `\s`) is modelled by `isPySpace`,
  covering the ASCII and Latin-1 whitespace code points; rarer Unicode
  space code points do not occur in this repository's inputs.
-/

namespace FerReply

/-- Whitespace as recognised by Python's `str.strip()` and the regex
class `\s` (ASCII / Latin-1 range). -/
def isPySpace (c : Char) : Bool :=
  c = ' ' || c = '\t' || c = '\n' || c = '\r' || c = '\x0b' || c = '\x0c' ||
    c = '\x1c' || c = '\x1d' || c = '\x1e' || c = '\x1f' || c = '\x85' || c = '\xa0'

/-- Python `str.strip(chars)` for an explicit character set. -/
def stripSet (p : Char → Bool) (l : List Char) : List Char :=
  (l.dropWhile p).rdropWhile p

/-- Python `str.strip()`: drop leading and trailing whitespace. -/
def pyStrip (l : List Char) : List Char := stripSet isPySpace l

/-- ASCII decimal digit (regex `\d` on the ASCII range). -/
def isDigitCh (c : Char) : Bool := '0' ≤ c && c ≤ '9'

/-- Horizontal whitespace, the regex class `[ \t]`. -/
def isHT (c : Char) : Bool := c = ' ' || c = '\t'

/-- `re.sub(p+, " ", _)`: every maximal run of characters satisfying `p`
becomes a single space. -/
def collapseRuns (p : Char → Bool) : List Char → List Char
  | [] => []
  | [a] => if p a then [' '] else [a]
  | a :: b :: t =>
    if p a && p b then collapseRuns p (b :: t)
    else (if p a then ' ' else a) :: collapseRuns p (b :: t)

/-- `_clean` step 1 (fer_parser.py:65): `text.replace("­", "")`. -/
def removeSoft (l : List Char) : List Char := l.filter (fun c => c ≠ '\xad')

/-- Match the regex `\(cid:\d+\)` at the head of the list; on success
return the remainder after the match (fer_parser.py:66). -/
def cidSplit (l : List Char) : Option (List Char) :=
  if l.take 5 = ['(', 'c', 'i', 'd', ':'] then
    if ((l.drop 5).takeWhile isDigitCh).isEmpty then none
    else if ((l.drop 5).dropWhile isDigitCh).head? = some ')' then
      some ((l.drop 5).dropWhile isDigitCh).tail
    else none
  else none

/-- One `re.sub(r"\(cid:\d+\)", "", t)` pass: scan left to right, delete
each non-overlapping match, continue after the match (the deleted span is
not rescanned). -/
def removeCidAux : Nat → List Char → List Char
  | _, [] => []
  | 0, l => l
  | fuel + 1, c :: cs =>
    match cidSplit (c :: cs) with
    | some rest => removeCidAux fuel rest
    | none => c :: removeCidAux fuel cs

/-- `re.sub(r"\(cid:\d+\)", "", t)`; fuel `l.length` suffices because every
step consumes at least one character. -/
def removeCid (l : List Char) : List Char := removeCidAux l.length l

/-- `re.sub(r"[ \t]+", " ", t)` (fer_parser.py:67). -/
def collapseWs (l : List Char) : List Char := collapseRuns isHT l

/-- Does the list start with two newlines? -/
def startsNN : List Char → Bool
  | '\n' :: '\n' :: _ => true
  | _ => false

/-- `re.sub(r"\n{3,}", "\n\n", t)` (fer_parser.py:68): a maximal run of
three or more newlines becomes exactly two.  Dropping the leading newline
while at least two more follow realises exactly that substitution. -/
def collapseNl : List Char → List Char
  | [] => []
  | c :: t => if c = '\n' && startsNN t then collapseNl t else c :: collapseNl t

/-- `_clean` (fer_parser.py:64-69 and claims_parser.py:84-89): remove soft
hyphens, remove `(cid:N)` glyph artifacts, collapse horizontal whitespace,
collapse 3+ newlines to 2, strip. -/
def cleanList (l : List Char) : List Char :=
  pyStrip (collapseNl (collapseWs (removeCid (removeSoft l))))

/-- `_clean` on Lean strings. -/
def clean (s : String) : String := String.mk (cleanList s.data)

example : clean "a  b" = "a b" := by decide
example : clean "  x(cid:12)y\n\n\n\nz\t " = "xy\n\nz" := by decide
example : clean "(cid(cid:1):2)" = "(cid:2)" := by decide
example : clean "(cid:2)" = "" := by decide

/-! ### Structural lemmas for the `_clean` passes (claim C2) -/

theorem cidSplit_some {l r : List Char} (h : cidSplit l = some r) :
    ∃ ds, l = '(' :: 'c' :: 'i' :: 'd' :: ':' :: (ds ++ ')' :: r) ∧ ds ≠ [] := by
  unfold cidSplit at h
  split_ifs at h with h5 hne hhd
  have hl : l.take 5 ++ l.drop 5 = l := List.take_append_drop 5 l
  have hsplit : (l.drop 5).takeWhile isDigitCh ++ (l.drop 5).dropWhile isDigitCh = l.drop 5 :=
    List.takeWhile_append_dropWhile isDigitCh (l.drop 5)
  have hafter : (l.drop 5).dropWhile isDigitCh = ')' :: r := by
    rcases hd : (l.drop 5).dropWhile isDigitCh with _ | ⟨a, t⟩
    · rw [hd] at hhd
      simp at hhd
    · rw [hd] at hhd h
      simp only [List.head?_cons, Option.some.injEq] at hhd
      simp only [List.tail_cons, Option.some.injEq] at h
      rw [hhd, h]
  refine ⟨(l.drop 5).takeWhile isDigitCh, ?_, by simpa using hne⟩
  calc l = l.take 5 ++ l.drop 5 := hl.symm
    _ = ['(', 'c', 'i', 'd', ':'] ++ l.drop 5 := by rw [h5]
    _ = ['(', 'c', 'i', 'd', ':'] ++
        ((l.drop 5).takeWhile isDigitCh ++ (l.drop 5).dropWhile isDigitCh) := by rw [hsplit]
    _ = ['(', 'c', 'i', 'd', ':'] ++ ((l.drop 5).takeWhile isDigitCh ++ (')' :: r)) := by
        rw [hafter]
    _ = '(' :: 'c' :: 'i' :: 'd' :: ':' :: ((l.drop 5).takeWhile isDigitCh ++ ')' :: r) := rfl

theorem cidSplit_some_length {l r : List Char} (h : cidSplit l = some r) :
    r.length + 7 ≤ l.length := by
  obtain ⟨ds, hl, hds⟩ := cidSplit_some h
  subst hl
  have : 1 ≤ ds.length := List.length_pos.mpr hds
  simp only [List.length_cons, List.length_append]
  omega

theorem mem_removeCidAux {c : Char} :
    ∀ (fuel : Nat) (l : List Char), c ∈ removeCidAux fuel l → c ∈ l
  | _, [] => by simp [removeCidAux]
  | 0, _ :: _ => by simp [removeCidAux]
  | fuel + 1, a :: l => by
    intro h
    simp only [removeCidAux] at h
    rcases hs : cidSplit (a :: l) with _ | rest
    · rw [hs] at h
      rcases List.mem_cons.mp h with h | h
      · simp [h]
      · exact List.mem_cons_of_mem _ (mem_removeCidAux fuel l h)
    · rw [hs] at h
      obtain ⟨ds, he, -⟩ := cidSplit_some hs
      have : c ∈ rest := mem_removeCidAux fuel rest h
      rw [he]
      simp [this]

theorem mem_removeCid {c : Char} {l : List Char} (h : c ∈ removeCid l) : c ∈ l :=
  mem_removeCidAux _ _ h

theorem mem_collapseRuns {p : Char → Bool} {c : Char} :
    ∀ l : List Char, c ∈ collapseRuns p l → c ∈ l ∨ c = ' '
  | [] => by simp [collapseRuns]
  | [a] => by
    by_cases h : p a <;> simp [collapseRuns, h] <;> intro h <;> simp [h]
  | a :: b :: t => by
    intro hmem
    simp only [collapseRuns] at hmem
    split at hmem
    · rcases mem_collapseRuns (b :: t) hmem with h | h
      · exact Or.inl (List.mem_cons_of_mem _ h)
      · exact Or.inr h
    · rcases List.mem_cons.mp hmem with h | h
      · subst h
        by_cases hp : p a
        · simp [hp]
        · simp [hp]
      · rcases mem_collapseRuns (b :: t) h with h | h
        · exact Or.inl (List.mem_cons_of_mem _ h)
        · exact Or.inr h

theorem mem_collapseNl {c : Char} :
    ∀ l : List Char, c ∈ collapseNl l → c ∈ l
  | [] => by simp [collapseNl]
  | a :: t => by
    intro hmem
    simp only [collapseNl] at hmem
    split at hmem
    · exact List.mem_cons_of_mem _ (mem_collapseNl t hmem)
    · rcases List.mem_cons.mp hmem with h | h
      · simp [h]
      · exact List.mem_cons_of_mem _ (mem_collapseNl t h)

theorem stripSet_infix_self (p : Char → Bool) (l : List Char) : stripSet p l <:+: l := by
  obtain ⟨u, hu⟩ := (List.rdropWhile_prefix p (l.dropWhile p))
  obtain ⟨v, hv⟩ := (List.dropWhile_suffix (l := l) p)
  refine ⟨v, u, ?_⟩
  rw [List.append_assoc, show stripSet p l ++ u = l.dropWhile p from hu]
  exact hv

theorem pyStrip_infix_self (l : List Char) : pyStrip l <:+: l :=
  stripSet_infix_self isPySpace l

theorem mem_pyStrip {c : Char} {l : List Char} (h : c ∈ pyStrip l) : c ∈ l :=
  ((pyStrip_infix_self l).sublist.subset) h

theorem startsNN_eq_true {l : List Char} (h : startsNN l = true) :
    ∃ u, l = '\n' :: '\n' :: u := by
  unfold startsNN at h
  split at h
  · rename_i u
    exact ⟨u, rfl⟩
  · exact absurd h (by simp)

theorem startsNN_head {l : List Char} (h : startsNN l = true) : l.head? = some '\n' := by
  obtain ⟨u, rfl⟩ := startsNN_eq_true h
  rfl

theorem collapseNl_head : ∀ l : List Char, (collapseNl l).head? = l.head?
  | [] => rfl
  | c :: t => by
    simp only [collapseNl]
    split
    · rename_i hcond
      simp only [Bool.and_eq_true, decide_eq_true_eq] at hcond
      rw [collapseNl_head t, startsNN_head hcond.2, hcond.1]
      rfl
    · rfl

theorem startsNN_collapseNl {t : List Char} (h : startsNN (collapseNl t) = true) :
    startsNN t = true := by
  cases t with
  | nil => exact absurd h (by simp [collapseNl, startsNN])
  | cons c t1 =>
    simp only [collapseNl] at h
    split at h
    · rename_i hcond
      simp only [Bool.and_eq_true, decide_eq_true_eq] at hcond
      obtain ⟨u, hu⟩ := startsNN_eq_true hcond.2
      rw [hcond.1, hu]
      rfl
    · obtain ⟨u, hu⟩ := startsNN_eq_true h
      obtain ⟨hc, htl⟩ := List.cons.injEq .. ▸ hu
      have h1 : t1.head? = some '\n' := by
        rw [← collapseNl_head t1, htl]
        rfl
      rcases t1 with _ | ⟨b, t2⟩
      · simp at h1
      · simp only [List.head?_cons, Option.some.injEq] at h1
        rw [hc, h1]
        rfl

/-- No three consecutive newlines occur in the list. -/
def noNNN : List Char → Bool
  | [] => true
  | c :: t => !(c = '\n' && startsNN t) && noNNN t

theorem noNNN_collapseNl : ∀ l : List Char, noNNN (collapseNl l) = true
  | [] => rfl
  | c :: t => by
    simp only [collapseNl]
    split
    · exact noNNN_collapseNl t
    · rename_i hcond
      simp only [noNNN, Bool.and_eq_true, Bool.not_eq_true']
      refine ⟨?_, noNNN_collapseNl t⟩
      by_cases hc : c = '\n'
      · have hst : startsNN t = false := by
          cases hnn : startsNN t
          · rfl
          · exact absurd (by simp [hc, hnn]) hcond
        have hcc : startsNN (collapseNl t) = false := by
          cases hnn2 : startsNN (collapseNl t)
          · rfl
          · rw [startsNN_collapseNl hnn2] at hst
            cases hst
        simp [hcc]
      · simp [hc]

theorem noNNN_tail {c : Char} {t : List Char} (h : noNNN (c :: t) = true) :
    noNNN t = true := by
  simp only [noNNN, Bool.and_eq_true] at h
  exact h.2

theorem startsNN_append {a b : List Char} (h : startsNN a = true) :
    startsNN (a ++ b) = true := by
  obtain ⟨u, rfl⟩ := startsNN_eq_true h
  rfl

theorem noNNN_append_right : ∀ {a : List Char} (b : List Char),
    noNNN (a ++ b) = true → noNNN b = true
  | [], _ => fun h => h
  | _ :: _, b => fun h => noNNN_append_right b (noNNN_tail h)

theorem noNNN_append_left : ∀ {a : List Char} (b : List Char),
    noNNN (a ++ b) = true → noNNN a = true
  | [], _ => fun _ => rfl
  | c :: a, b => fun h => by
    have h' : (!(c = '\n' && startsNN (a ++ b)) && noNNN (a ++ b)) = true := h
    simp only [Bool.and_eq_true, Bool.not_eq_true'] at h'
    obtain ⟨h1, h2⟩ := h'
    show (!(c = '\n' && startsNN a) && noNNN a) = true
    simp only [Bool.and_eq_true, Bool.not_eq_true']
    refine ⟨?_, noNNN_append_left b h2⟩
    by_cases hc : c = '\n'
    · cases hsa : startsNN a
      · simp [hsa]
      · rw [startsNN_append hsa] at h1
        simp at h1
        exact absurd hc h1
    · simp [hc]

theorem noNNN_of_infix {u l : List Char} (hinf : u <:+: l) (h : noNNN l = true) :
    noNNN u = true := by
  obtain ⟨s, t, hst⟩ := hinf
  rw [← hst, List.append_assoc] at h
  exact noNNN_append_left t (noNNN_append_right (u ++ t) h)

theorem collapseNl_eq_self : ∀ {l : List Char}, noNNN l = true → collapseNl l = l
  | [], _ => rfl
  | c :: t, h => by
    simp only [noNNN, Bool.and_eq_true, Bool.not_eq_true'] at h
    simp only [collapseNl]
    rw [if_neg (by simp [h.1]), collapseNl_eq_self h.2]

/-- No two adjacent spaces (the pair relation used to show that
`collapseWs` output is a fixpoint of `collapseWs`). -/
def noSS (a b : Char) : Prop := ¬(a = ' ' ∧ b = ' ')

theorem collapseRuns_head (p : Char → Bool) :
    ∀ l : List Char,
      (collapseRuns p l).head? = l.head?.map (fun c => if p c then ' ' else c)
  | [] => rfl
  | [a] => by
    by_cases h : p a <;> simp [collapseRuns, h]
  | a :: b :: t => by
    simp only [collapseRuns]
    split
    · rename_i hab
      simp only [Bool.and_eq_true] at hab
      rw [collapseRuns_head p (b :: t)]
      simp [hab.1, hab.2]
    · simp

theorem noTab_collapseRuns :
    ∀ l : List Char, ∀ c ∈ collapseRuns isHT l, c ≠ '\t'
  | [] => by simp [collapseRuns]
  | [a] => by
    by_cases h : isHT a
    · rw [collapseRuns, if_pos h]
      intro c hc
      simp only [List.mem_singleton] at hc
      simp [hc]
    · rw [collapseRuns, if_neg h]
      intro c hc
      simp only [List.mem_singleton] at hc
      subst hc
      intro hct
      exact h (by simp [hct, isHT])
  | a :: b :: t => by
    simp only [collapseRuns]
    split
    · exact fun c hc => noTab_collapseRuns (b :: t) c hc
    · intro c hc
      rcases List.mem_cons.mp hc with h | h
      · subst h
        by_cases hpa : isHT a
        · rw [if_pos hpa]
          decide
        · rw [if_neg hpa]
          intro hct
          exact hpa (by simp [hct, isHT])
      · exact noTab_collapseRuns (b :: t) c h

theorem chain_noSS_collapseRuns :
    ∀ l : List Char, List.Chain' noSS (collapseRuns isHT l)
  | [] => List.chain'_nil
  | [a] => by
    by_cases h : isHT a
    · rw [collapseRuns, if_pos h]
      exact List.chain'_singleton _
    · rw [collapseRuns, if_neg h]
      exact List.chain'_singleton _
  | a :: b :: t => by
    simp only [collapseRuns]
    split
    · exact chain_noSS_collapseRuns (b :: t)
    · rename_i hab
      refine List.chain'_cons'.mpr ⟨?_, chain_noSS_collapseRuns (b :: t)⟩
      intro y hy
      have hy' : (collapseRuns isHT (b :: t)).head? = some y := hy
      rw [collapseRuns_head isHT (b :: t)] at hy'
      simp only [List.head?_cons, Option.map_some'] at hy'
      have hyv : y = if isHT b = true then ' ' else b := (Option.some.inj hy').symm
      intro hcon
      obtain ⟨hx, hys⟩ := hcon
      have hpa : isHT a = true := by
        by_cases hp : isHT a
        · exact hp
        · rw [if_neg hp] at hx
          exact absurd (by simp [hx, isHT]) hp
      have hpb : isHT b = true := by
        by_cases hp : isHT b
        · exact hp
        · rw [hyv, if_neg hp] at hys
          exact absurd (by simp [hys, isHT]) hp
      simp [hpa, hpb] at hab

theorem chain'_collapseNl {R : Char → Char → Prop} :
    ∀ l : List Char, List.Chain' R l → List.Chain' R (collapseNl l)
  | [] => fun h => h
  | c :: t => fun h => by
    simp only [collapseNl]
    split
    · exact chain'_collapseNl t ((List.chain'_cons'.mp h).2)
    · refine List.chain'_cons'.mpr ⟨?_, chain'_collapseNl t ((List.chain'_cons'.mp h).2)⟩
      intro y hy
      rw [collapseNl_head t] at hy
      exact (List.chain'_cons'.mp h).1 y hy

theorem collapseWs_eq_self :
    ∀ l : List Char, (∀ c ∈ l, c ≠ '\t') → List.Chain' noSS l → collapseWs l = l
  | [], _, _ => rfl
  | [a], htab, _ => by
    by_cases h : isHT a
    · have ha : a = ' ' := by
        have := htab a (by simp)
        rcases (by simpa [isHT] using h : a = ' ' ∨ a = '\t') with h1 | h1
        · exact h1
        · exact absurd h1 this
      simp [collapseWs, collapseRuns, h, ha]
    · simp [collapseWs, collapseRuns, h]
  | a :: b :: t, htab, hch => by
    have hR : noSS a b := (List.chain'_cons.mp hch).1
    have hnab : ¬(isHT a = true ∧ isHT b = true) := by
      rintro ⟨ha, hb⟩
      refine hR ⟨?_, ?_⟩
      · rcases (by simpa [isHT] using ha : a = ' ' ∨ a = '\t') with h1 | h1
        · exact h1
        · exact absurd h1 (htab a (by simp))
      · rcases (by simpa [isHT] using hb : b = ' ' ∨ b = '\t') with h1 | h1
        · exact h1
        · exact absurd h1 (htab b (by simp))
    have htl : collapseWs (b :: t) = b :: t :=
      collapseWs_eq_self (b :: t) (fun c hc => htab c (List.mem_cons_of_mem _ hc))
        (List.chain'_cons.mp hch).2
    simp only [collapseWs, collapseRuns]
    rw [if_neg (by simpa using hnab)]
    by_cases hpa : isHT a
    · have ha : a = ' ' := by
        rcases (by simpa [isHT] using hpa : a = ' ' ∨ a = '\t') with h1 | h1
        · exact h1
        · exact absurd h1 (htab a (by simp))
      rw [if_pos hpa, ha]
      exact congrArg _ htl
    · rw [if_neg hpa]
      exact congrArg _ htl

theorem stripSet_idem (p : Char → Bool) (l : List Char) :
    stripSet p (stripSet p l) = stripSet p l := by
  unfold stripSet
  have hdv :
      ((l.dropWhile p).rdropWhile p).dropWhile p = (l.dropWhile p).rdropWhile p := by
    rcases hv : (l.dropWhile p).rdropWhile p with _ | ⟨a, t⟩
    · rfl
    · have hpref := List.rdropWhile_prefix (p := p) (l := l.dropWhile p)
      rw [hv] at hpref
      obtain ⟨w, hw⟩ := hpref
      have hh : (l.dropWhile p).head? = some a := by
        rw [← hw]
        rfl
      have hmn := List.head?_dropWhile_not p l
      rw [hh] at hmn
      simp only at hmn
      simp [List.dropWhile_cons, hmn]
  rw [hdv, List.rdropWhile_idempotent]

theorem pyStrip_pyStrip (l : List Char) : pyStrip (pyStrip l) = pyStrip l :=
  stripSet_idem isPySpace l

theorem stripSet_head_not {p : Char → Bool} {l : List Char} {c : Char}
    (h : (stripSet p l).head? = some c) : p c = false := by
  have h' : ((l.dropWhile p).rdropWhile p).head? = some c := h
  have hpref := List.rdropWhile_prefix (p := p) (l := l.dropWhile p)
  obtain ⟨w, hw⟩ := hpref
  have hh : (l.dropWhile p).head? = some c := by
    rw [← hw]
    rcases hv : (l.dropWhile p).rdropWhile p with _ | ⟨a, t⟩
    · rw [hv] at h'
      cases h'
    · rw [hv] at h'
      simp only [List.head?_cons, Option.some.injEq] at h'
      simp [h']
  have hmn := List.head?_dropWhile_not p l
  rw [hh] at hmn
  simpa using hmn

theorem stripSet_getLast_not {p : Char → Bool} {l : List Char} {c : Char}
    (h : (stripSet p l).getLast? = some c) : p c = false := by
  have hne : (l.dropWhile p).rdropWhile p ≠ [] := by
    intro he
    have : stripSet p l = [] := he
    rw [this] at h
    cases h
  have hlast := List.rdropWhile_last_not p (l.dropWhile p) hne
  have : stripSet p l ≠ [] := hne
  rw [List.getLast?_eq_getLast _ this] at h
  have hco : (stripSet p l).getLast this = c := Option.some.inj h
  rw [show (stripSet p l).getLast this = ((l.dropWhile p).rdropWhile p).getLast hne from rfl]
    at hco
  rw [hco] at hlast
  simpa using hlast

theorem mem_cleanList_no_soft {c : Char} {l : List Char} (h : c ∈ cleanList l) :
    c ≠ '\xad' := by
  have h1 := mem_pyStrip h
  have h2 := mem_collapseNl _ h1
  rcases mem_collapseRuns _ h2 with h3 | h3
  · have h4 := mem_removeCid h3
    have h5 := List.mem_filter.mp h4
    simpa using h5.2
  · subst h3
    decide

theorem mem_cleanList_no_tab {c : Char} {l : List Char} (h : c ∈ cleanList l) :
    c ≠ '\t' := by
  have h1 := mem_pyStrip h
  exact noTab_collapseRuns _ c (mem_collapseNl _ h1)

theorem cleanList_chain (l : List Char) : List.Chain' noSS (cleanList l) :=
  List.Chain'.infix (chain'_collapseNl _ (chain_noSS_collapseRuns _)) (pyStrip_infix_self _)

theorem cleanList_noNNN (l : List Char) : noNNN (cleanList l) = true :=
  noNNN_of_infix (pyStrip_infix_self _) (noNNN_collapseNl _)

theorem cleanList_idem {l : List Char} (h : removeCid (cleanList l) = cleanList l) :
    cleanList (cleanList l) = cleanList l := by
  have hsoft : removeSoft (cleanList l) = cleanList l :=
    List.filter_eq_self.mpr (fun c hc => by simpa using mem_cleanList_no_soft hc)
  have hws : collapseWs (cleanList l) = cleanList l :=
    collapseWs_eq_self _ (fun c hc => mem_cleanList_no_tab hc) (cleanList_chain l)
  have hnl : collapseNl (cleanList l) = cleanList l :=
    collapseNl_eq_self (cleanList_noNNN l)
  have hstrip : pyStrip (cleanList l) = cleanList l := pyStrip_pyStrip _
  show pyStrip (collapseNl (collapseWs (removeCid (removeSoft (cleanList l))))) = cleanList l
  rw [hsoft, h, hws, hnl, hstrip]

/-- C2 (counterexample): `_clean` is not idempotent on every input.  On
`"(cid(cid:1):2)"` the single cid-removal pass splices the surrounding text
into a fresh `(cid:2)` artifact (re.sub does not rescan spliced text), and
the second `_clean` pass then deletes it. -/
theorem clean_not_idempotent_cex :
    clean (clean "(cid(cid:1):2)") ≠ clean "(cid(cid:1):2)" := by decide

/-- C2 (amended): `_clean` is idempotent on every input on which the first
pass's cid-removal leaves no residual `(cid:N)` artifact, i.e. whenever a
second cid-removal is a no-op on the first pass's output.  (The whitespace
collapses, the newline collapse, the soft-hyphen removal and the strip are
unconditionally idempotent in composition; only the cid-removal pass can
create new work for itself.) -/
theorem clean_idempotent_of_no_residual_cid (s : String)
    (h : removeCid (cleanList s.data) = cleanList s.data) :
    clean (clean s) = clean s := by
  show String.mk (cleanList (String.mk (cleanList s.data)).data) = String.mk (cleanList s.data)
  rw [show (String.mk (cleanList s.data)).data = cleanList s.data from rfl, cleanList_idem h]

/-- C2 (witness): the amended idempotence theorem applied to a concrete FER
text fragment. -/
theorem clean_idempotent_witness :
    clean (clean " Application(cid:9)  No.:\n\n\n 1234 ") =
      clean " Application(cid:9)  No.:\n\n\n 1234 " :=
  clean_idempotent_of_no_residual_cid " Application(cid:9)  No.:\n\n\n 1234 " (by decide)

/-! ### Character-level facts about `str.upper()` (modelled by `Char.toUpper`,
whose basic-latin case mapping agrees with Python on ASCII input) -/

theorem uint32_le_iff_toNat {a b : UInt32} : a ≤ b ↔ a.toNat ≤ b.toNat := by
  simp [UInt32.le_def, BitVec.le_def, UInt32.toNat]

theorem charOfNat_toNat {m : Nat} (hv : m.isValidChar) : (Char.ofNat m).toNat = m := by
  simp only [Char.ofNat, dif_pos hv, Char.ofNatAux, Char.toNat, UInt32.ofNat', UInt32.toNat,
    BitVec.ofNatLt, BitVec.toNat]

theorem char_isLower_iff {c : Char} : c.isLower = true ↔ 97 ≤ c.toNat ∧ c.toNat ≤ 122 := by
  have h97 : (97 : UInt32).toNat = 97 := rfl
  have h122 : (122 : UInt32).toNat = 122 := rfl
  simp only [Char.isLower, ge_iff_le, Bool.and_eq_true, decide_eq_true_eq,
    uint32_le_iff_toNat, h97, h122]
  exact Iff.rfl

theorem char_isLower_ofNat_false {m : Nat} (h1 : 65 ≤ m) (h2 : m ≤ 90) :
    Char.isLower (Char.ofNat m) = false := by
  have hv : m.isValidChar := Or.inl (by omega)
  have ht : (Char.ofNat m).toNat = m := charOfNat_toNat hv
  cases hl : Char.isLower (Char.ofNat m)
  · rfl
  · have := char_isLower_iff.mp hl
    rw [ht] at this
    omega

theorem toUpper_isLower (c : Char) : (Char.toUpper c).isLower = false := by
  rw [show Char.toUpper c =
    (if c.toNat ≥ 97 ∧ c.toNat ≤ 122 then Char.ofNat (c.toNat - 32) else c) from rfl]
  split_ifs with h
  · exact char_isLower_ofNat_false (by omega) (by omega)
  · cases hl : c.isLower
    · rfl
    · have := char_isLower_iff.mp hl
      exact absurd ⟨this.1, this.2⟩ h

theorem isPySpace_toNat {d : Char} (h : isPySpace d = true) :
    d.toNat ≤ 32 ∨ d.toNat = 133 ∨ d.toNat = 160 := by
  simp only [isPySpace, Bool.or_eq_true, decide_eq_true_eq] at h
  rcases h with ((((((((((h | h) | h) | h) | h) | h) | h) | h) | h) | h) | h) | h <;>
    subst h <;> decide

theorem toUpper_isPySpace {c : Char} (hc : isPySpace c = false) :
    isPySpace (Char.toUpper c) = false := by
  rw [show Char.toUpper c =
    (if c.toNat ≥ 97 ∧ c.toNat ≤ 122 then Char.ofNat (c.toNat - 32) else c) from rfl]
  split_ifs with h
  · have hv : (c.toNat - 32).isValidChar := Or.inl (by omega)
    have ht : (Char.ofNat (c.toNat - 32)).toNat = c.toNat - 32 := charOfNat_toNat hv
    cases hp : isPySpace (Char.ofNat (c.toNat - 32))
    · rfl
    · have := isPySpace_toNat hp
      rw [ht] at this
      omega
  · exact hc

/-! ### Claim C3: `_normalize_application_no` (fer_parser.py:82-89) -/

/-- The punctuation set of `value.strip("/:-|")`. -/
def isAppPunct (c : Char) : Bool := c = '/' || c = ':' || c = '-' || c = '|'

/-- ASCII digits of a string, in order (`re.sub(r"\D", "", value)` keeps
exactly these). -/
def digitsOf (l : List Char) : List Char := l.filter isDigitCh

/-- `_normalize_application_no` (fer_parser.py:82-89) on character lists. -/
def normalizeAppNoList (raw : List Char) : List Char :=
  let value := stripSet isAppPunct (pyStrip raw)
  if value.isEmpty then []
  else if 10 ≤ (value.filter isDigitCh).length then value.filter isDigitCh
  else stripSet isAppPunct ((value.filter (fun c => !isPySpace c)).map Char.toUpper)

/-- `_normalize_application_no` on strings. -/
def normalize_application_no (raw : String) : String :=
  String.mk (normalizeAppNoList raw.data)

example : normalize_application_no "Application No.: 20/1234/CHE/2019" = "2012342019" := by
  decide
example : normalize_application_no " 1/che/19 " = "1/CHE/19" := by decide

theorem filter_dropWhile_excl {q p : Char → Bool} (hpq : ∀ c, p c = true → q c = false)
    (l : List Char) : (l.dropWhile p).filter q = l.filter q := by
  conv_rhs => rw [← List.takeWhile_append_dropWhile (p := p) (l := l)]
  rw [List.filter_append]
  have hnil : (l.takeWhile p).filter q = [] := by
    rw [List.filter_eq_nil_iff]
    intro a ha
    simp [hpq a (List.mem_takeWhile_imp ha)]
  rw [hnil, List.nil_append]

theorem filter_rdropWhile_excl {q p : Char → Bool} (hpq : ∀ c, p c = true → q c = false)
    (l : List Char) : (l.rdropWhile p).filter q = l.filter q := by
  unfold List.rdropWhile
  rw [List.filter_reverse, filter_dropWhile_excl hpq, List.filter_reverse,
    List.reverse_reverse]

theorem filter_stripSet_excl {q p : Char → Bool} (hpq : ∀ c, p c = true → q c = false)
    (l : List Char) : (stripSet p l).filter q = l.filter q := by
  unfold stripSet
  rw [filter_rdropWhile_excl hpq, filter_dropWhile_excl hpq]

theorem appPunct_not_digit : ∀ c : Char, isAppPunct c = true → isDigitCh c = false := by
  intro c h
  simp only [isAppPunct, Bool.or_eq_true, decide_eq_true_eq] at h
  rcases h with ((h | h) | h) | h <;> subst h <;> decide

theorem pySpace_not_digit : ∀ c : Char, isPySpace c = true → isDigitCh c = false := by
  intro c h
  have hsp := isPySpace_toNat h
  cases hd : isDigitCh c
  · rfl
  · exfalso
    simp only [isDigitCh, Bool.and_eq_true, decide_eq_true_eq] at hd
    have h0 := hd.1
    have h9 := hd.2
    rw [Char.le_def, uint32_le_iff_toNat] at h0 h9
    have e0 : ('0' : Char).val.toNat = 48 := rfl
    have e9 : ('9' : Char).val.toNat = 57 := rfl
    rw [e0] at h0
    rw [e9] at h9
    have ec : c.toNat = c.val.toNat := rfl
    rw [ec] at hsp
    omega

theorem digitsOf_stripSet_pyStrip (raw : List Char) :
    digitsOf (stripSet isAppPunct (pyStrip raw)) = digitsOf raw := by
  unfold digitsOf pyStrip
  rw [filter_stripSet_excl appPunct_not_digit, filter_stripSet_excl pySpace_not_digit]

/-- C3: application-number normalization.  (i) If the raw captured value
contains at least 10 digit characters, the result is exactly those digits in
order.  (ii) Otherwise the result contains no lowercase ASCII letters and no
whitespace, and neither starts nor ends with one of the punctuation
characters `/:-|`.  (iii) The spec's example input yields the pure-digit
string. -/
theorem normalize_application_no_spec :
    (∀ raw : String, 10 ≤ (digitsOf raw.data).length →
      (normalize_application_no raw).data = digitsOf raw.data) ∧
    (∀ raw : String, (digitsOf raw.data).length < 10 →
      (∀ c ∈ (normalize_application_no raw).data, c.isLower = false ∧ isPySpace c = false) ∧
      (∀ c, ((normalize_application_no raw).data.head? = some c → isAppPunct c = false) ∧
        ((normalize_application_no raw).data.getLast? = some c → isAppPunct c = false))) ∧
    normalize_application_no "Application No.: 20/1234/CHE/2019" = "2012342019" := by
  refine ⟨?_, ?_, by decide⟩
  · intro raw h
    show normalizeAppNoList raw.data = digitsOf raw.data
    unfold normalizeAppNoList
    have hdig := digitsOf_stripSet_pyStrip raw.data
    rw [if_neg ?hne]
    case hne =>
      intro he
      rw [List.isEmpty_iff] at he
      rw [he] at hdig
      rw [← hdig] at h
      simp [digitsOf] at h
    rw [if_pos]
    · exact hdig
    · show 10 ≤ (digitsOf (stripSet isAppPunct (pyStrip raw.data))).length
      rw [hdig]
      exact h
  · intro raw h
    show (∀ c ∈ normalizeAppNoList raw.data, c.isLower = false ∧ isPySpace c = false) ∧
      (∀ c, ((normalizeAppNoList raw.data).head? = some c → isAppPunct c = false) ∧
        ((normalizeAppNoList raw.data).getLast? = some c → isAppPunct c = false))
    unfold normalizeAppNoList
    have hdig := digitsOf_stripSet_pyStrip raw.data
    by_cases hv : (stripSet isAppPunct (pyStrip raw.data)).isEmpty
    · rw [if_pos hv]
      refine ⟨fun c hc => absurd hc (List.not_mem_nil c), fun c => ⟨?_, ?_⟩⟩
      · intro hh
        exact Option.noConfusion hh
      · intro hh
        exact Option.noConfusion hh
    · rw [if_neg hv, if_neg ?hlt]
      case hlt =>
        show ¬10 ≤ (digitsOf (stripSet isAppPunct (pyStrip raw.data))).length
        rw [hdig]
        omega
      constructor
      · intro c hc
        have hmem := (stripSet_infix_self isAppPunct _).sublist.subset hc
        obtain ⟨d, hd, hde⟩ := List.mem_map.mp hmem
        have hdns : isPySpace d = false := by
          have := List.mem_filter.mp hd
          simpa using this.2
        subst hde
        exact ⟨toUpper_isLower d, toUpper_isPySpace hdns⟩
      · intro c
        exact ⟨fun hh => stripSet_head_not hh, fun hh => stripSet_getLast_not hh⟩

/-- C3 (witness): the normalization theorem applied to the spec's example
(≥10-digit branch) and to a short office-reference value (<10-digit
branch). -/
theorem normalize_application_no_witness :
    (normalize_application_no "Application No.: 20/1234/CHE/2019").data =
      digitsOf "Application No.: 20/1234/CHE/2019".data ∧
    (∀ c ∈ (normalize_application_no " 1/che/19 ").data,
      c.isLower = false ∧ isPySpace c = false) :=
  ⟨normalize_application_no_spec.1 "Application No.: 20/1234/CHE/2019" (by decide),
    (normalize_application_no_spec.2.1 " 1/che/19 " (by decide)).1⟩

/-! ### Claim C9: `_normalize_heading` (fer_parser.py:852-859) -/

/-- One pass of Python `str.replace(pat, rep)`: scan left to right, replace
each non-overlapping occurrence, continue after the replacement. -/
def replaceAllAux (pat rep : List Char) : Nat → List Char → List Char
  | _, [] => []
  | 0, l => l
  | fuel + 1, c :: cs =>
    if pat.isPrefixOf (c :: cs) then
      rep ++ replaceAllAux pat rep fuel ((c :: cs).drop pat.length)
    else c :: replaceAllAux pat rep fuel cs

/-- `str.replace(pat, rep)` for a non-empty pattern (fuel `l.length`
suffices because every step consumes at least one character). -/
def replaceAll (pat rep l : List Char) : List Char := replaceAllAux pat rep l.length l

/-- Case-insensitive literal match (regex `re.I`); the pattern is given in
upper case.  Returns the remainder on success. -/
def matchLit : List Char → List Char → Option (List Char)
  | [], l => some l
  | _ :: _, [] => none
  | p :: ps, c :: cs => if Char.toUpper c = p then matchLit ps cs else none

/-- Regex `\s+` with maximal munch: at least one whitespace character. -/
def dropWs1 (l : List Char) : Option (List Char) :=
  if (l.takeWhile isPySpace).isEmpty then none else some (l.dropWhile isPySpace)

/-- Tail `CLAIMS?$` of the scope-heading regex. -/
def claimsEnd (l : List Char) : Bool :=
  match matchLit ['C', 'L', 'A', 'I', 'M'] l with
  | none => false
  | some r =>
    r.isEmpty ||
      (match matchLit ['S'] r with
       | some r2 => r2.isEmpty
       | none => false)

/-- Alternative `\s+THE\s+CLAIMS?$` after `SCOPE\s+OF`. -/
def scopeTailThe (l : List Char) : Bool :=
  match dropWs1 l with
  | none => false
  | some r3 =>
    match matchLit ['T', 'H', 'E'] r3 with
    | none => false
    | some r4 =>
      match dropWs1 r4 with
      | none => false
      | some r5 => claimsEnd r5

/-- Alternative `\s+CLAIMS?$` after `SCOPE\s+OF`. -/
def scopeTailClaims (l : List Char) : Bool :=
  match dropWs1 l with
  | none => false
  | some r3 => claimsEnd r3

/-- `re.fullmatch(r"SCOPE(?:\s+OF(?:\s+THE)?\s+CLAIMS?)?", h, re.I)`
(fer_parser.py:855). -/
def scopeFullmatch (l : List Char) : Bool :=
  match matchLit ['S', 'C', 'O', 'P', 'E'] l with
  | none => false
  | some rest =>
    rest.isEmpty ||
      (match dropWs1 rest with
       | none => false
       | some r1 =>
         match matchLit ['O', 'F'] r1 with
         | none => false
         | some r2 => scopeTailThe r2 || scopeTailClaims r2)

/-- `_normalize_heading` (fer_parser.py:852-859): uppercase, collapse
whitespace, strip; rewrite `NON-PATENTABILITY`; canonicalise the SCOPE and
OTHER(S) REQUIREMENT(S) families. -/
def normalize_heading (raw : String) : String :=
  let h0 := pyStrip (collapseRuns isPySpace (raw.data.map Char.toUpper))
  let h := replaceAll "NON-PATENTABILITY".data "NON PATENTABILITY".data h0
  if scopeFullmatch h then "SCOPE"
  else if "OTHER REQUIREMENT".data.isPrefixOf h || "OTHERS REQUIREMENT".data.isPrefixOf h then
    "OTHERS REQUIREMENTS"
  else String.mk h

/-- The four word-forms covered by the spec's "OTHER(S) REQUIREMENT(S)". -/
def otherVariant (s1 s2 : Bool) : String :=
  String.mk ("OTHER".data ++ (if s1 then ['S'] else []) ++ " REQUIREMENT".data ++
    (if s2 then ['S'] else []))

/-- C9: heading normalization.  "Scope of the Claims", "SCOPE" and
"scope of claims" all normalize to "SCOPE"; "Non-Patentability" normalizes
to "NON PATENTABILITY"; and every OTHER(S) REQUIREMENT(S) word-form
normalizes to "OTHERS REQUIREMENTS". -/
theorem normalize_heading_spec :
    normalize_heading "Scope of the Claims" = "SCOPE" ∧
    normalize_heading "SCOPE" = "SCOPE" ∧
    normalize_heading "scope of claims" = "SCOPE" ∧
    normalize_heading "Non-Patentability" = "NON PATENTABILITY" ∧
    ∀ s1 s2 : Bool, normalize_heading (otherVariant s1 s2) = "OTHERS REQUIREMENTS" := by
  refine ⟨by decide, by decide, by decide, by decide, ?_⟩
  intro s1 s2
  cases s1 <;> cases s2 <;> decide

/-! ### Claims C8 and C10: `_format_d_label_ranges` (reply_generator.py:232-260) -/

/-- `int(...)` on a captured digit group. -/
def digitsToNat (ds : List Char) : Nat :=
  ds.foldl (fun acc c => 10 * acc + (c.toNat - 48)) 0

/-- `re.fullmatch(r"D(\d{1,3})", (lbl or "").strip().upper())` followed by
`int(m.group(1))` (reply_generator.py:235-238). -/
def parseDLabel (lbl : String) : Option Nat :=
  match (pyStrip lbl.data).map Char.toUpper with
  | 'D' :: ds =>
    if ds.isEmpty then none
    else if ds.length ≤ 3 && ds.all isDigitCh then some (digitsToNat ds) else none
  | _ => none

/-- The parsing loop of `_format_d_label_ranges`: every label must parse,
the first failure aborts (reply_generator.py:233-238). -/
def parseAll : List String → Option (List Nat)
  | [] => some []
  | lbl :: rest =>
    match parseDLabel lbl with
    | none => none
    | some n =>
      match parseAll rest with
      | none => none
      | some ns => some (n :: ns)

/-- Insert into a strictly sorted list, dropping duplicates. -/
def insSorted (n : Nat) : List Nat → List Nat
  | [] => [n]
  | m :: t => if n < m then n :: m :: t else if n = m then m :: t else m :: insSorted n t

/-- `sorted(set(nums))` (reply_generator.py:243): the strictly increasing
enumeration of the distinct elements. -/
def sortedDedup (l : List Nat) : List Nat := l.foldr insSorted []

/-- The range-building loop of `_format_d_label_ranges`
(reply_generator.py:245-252). -/
def rangesLoop (start prev : Nat) : List Nat → List (Nat × Nat)
  | [] => [(start, prev)]
  | n :: rest =>
    if n = prev + 1 then rangesLoop start n rest
    else (start, prev) :: rangesLoop n n rest

/-- Rendering of one range part (reply_generator.py:254-259). -/
def renderRange : Nat × Nat → String :=
  fun p => if p.1 = p.2 then "D" ++ toString p.1 else "D" ++ toString p.1 ++ "-D" ++ toString p.2

/-- `_format_d_label_ranges` (reply_generator.py:232-260). -/
def format_d_label_ranges (labels : List String) : String :=
  match parseAll labels with
  | none => String.intercalate ", " (labels.filter (fun x => x ≠ ""))
  | some nums =>
    if nums.isEmpty then ""
    else
      match sortedDedup nums with
      | [] => ""
      | n :: rest => String.intercalate ", " ((rangesLoop n n rest).map renderRange)

example : format_d_label_ranges ["D1", "D2", "D3"] = "D1-D3" := by decide
example : format_d_label_ranges ["D2", "D10"] = "D2, D10" := by decide
example : format_d_label_ranges ["D1", "x"] = "D1, x" := by decide

/-- The consecutive block `a, a+1, ..., b`. -/
def rangeList (a b : Nat) : List Nat := List.range' a (b + 1 - a)

/-- Modelled from the spec's words for C8: a decomposition of a number list
into maximal runs of consecutive values, each rendered as a `(first, last)`
pair.  `cons` requires the following run (if any) not to continue the
current one, which is exactly maximality. -/
inductive RunDecomp : List Nat → List (Nat × Nat) → Prop
  | nil : RunDecomp [] []
  | cons (a b : Nat) (rest : List Nat) (ps : List (Nat × Nat)) :
      a ≤ b →
      (∀ h : rest ≠ [], rest.head h ≠ b + 1) →
      RunDecomp rest ps →
      RunDecomp (rangeList a b ++ rest) ((a, b) :: ps)

theorem rangeList_snoc {start prev : Nat} (h : start ≤ prev) :
    rangeList start prev ++ [prev + 1] = rangeList start (prev + 1) := by
  unfold rangeList
  have h1 : [prev + 1] = List.range' (start + (prev + 1 - start)) 1 := by
    have : start + (prev + 1 - start) = prev + 1 := by omega
    rw [this]
    rfl
  rw [h1, List.range'_append_1]
  have : 1 + (prev + 1 - start) = prev + 1 + 1 - start := by omega
  rw [this]

theorem rangesLoop_decomp :
    ∀ (t : List Nat) (start prev : Nat), start ≤ prev →
      List.Chain' (· < ·) (prev :: t) →
      RunDecomp (rangeList start prev ++ t) (rangesLoop start prev t)
  | [], start, prev => fun hsp _ => by
    rw [rangesLoop]
    exact RunDecomp.cons start prev [] [] hsp (fun h => absurd rfl h) RunDecomp.nil
  | n :: rest, start, prev => fun hsp hch => by
    rw [rangesLoop]
    split_ifs with heq
    · have hch' : List.Chain' (· < ·) (n :: rest) := (List.chain'_cons.mp hch).2
      have := rangesLoop_decomp rest start n (by omega) hch'
      rw [show rangeList start prev ++ n :: rest = (rangeList start prev ++ [n]) ++ rest by
        simp]
      rw [show rangeList start prev ++ [n] = rangeList start n by
        rw [heq]; exact rangeList_snoc hsp]
      exact this
    · have hch' : List.Chain' (· < ·) (n :: rest) := (List.chain'_cons.mp hch).2
      have hdec := rangesLoop_decomp rest n n (le_refl n) hch'
      refine RunDecomp.cons start prev (n :: rest) _ hsp ?_ ?_
      · intro _ hhd
        exact heq hhd
      · have : rangeList n n ++ rest = n :: rest := by
          unfold rangeList
          simp [List.range']
        rw [← this]
        exact hdec

theorem chain_lt_insSorted {n : Nat} :
    ∀ {l : List Nat}, List.Chain' (· < ·) l → List.Chain' (· < ·) (insSorted n l)
  | [], _ => List.chain'_singleton n
  | m :: t, h => by
    unfold insSorted
    split_ifs with h1 h2
    · exact List.chain'_cons.mpr ⟨h1, h⟩
    · exact h
    · have hmn : m < n := by omega
      have htl := chain_lt_insSorted (n := n) (List.chain'_cons'.mp h).2
      refine List.chain'_cons'.mpr ⟨?_, htl⟩
      intro y hy
      have hy' : (insSorted n t).head? = some y := hy
      rcases t with _ | ⟨k, t2⟩
      · simp only [insSorted, List.head?_cons, Option.some.injEq] at hy'
        omega
      · unfold insSorted at hy'
        split_ifs at hy' with g1 g2 <;>
          simp only [List.head?_cons, Option.some.injEq] at hy' <;> subst hy'
        · exact hmn
        · exact (List.chain'_cons'.mp h).1 _ rfl
        · exact (List.chain'_cons'.mp h).1 _ rfl

theorem mem_insSorted {x n : Nat} :
    ∀ {l : List Nat}, x ∈ insSorted n l ↔ x = n ∨ x ∈ l
  | [] => by simp [insSorted]
  | m :: t => by
    unfold insSorted
    split_ifs with h1 h2
    · simp [or_comm, or_assoc, or_left_comm]
    · subst h2
      simp [or_comm]
    · rw [List.mem_cons, List.mem_cons, mem_insSorted (l := t)]
      tauto

theorem chain_lt_sortedDedup (l : List Nat) : List.Chain' (· < ·) (sortedDedup l) := by
  induction l with
  | nil => exact List.chain'_nil
  | cons a t ih => exact chain_lt_insSorted ih

theorem mem_sortedDedup {x : Nat} {l : List Nat} : x ∈ sortedDedup l ↔ x ∈ l := by
  induction l with
  | nil => simp [sortedDedup]
  | cons a t ih =>
    show x ∈ insSorted a (sortedDedup t) ↔ _
    rw [mem_insSorted, ih, List.mem_cons]

theorem sorted_lt_ext :
    ∀ {l₁ l₂ : List Nat}, List.Chain' (· < ·) l₁ → List.Chain' (· < ·) l₂ →
      (∀ x, x ∈ l₁ ↔ x ∈ l₂) → l₁ = l₂
  | [], [], _, _, _ => rfl
  | [], b :: s, _, _, hm => absurd ((hm b).mpr (by simp)) (by simp)
  | a :: t, [], _, _, hm => absurd ((hm a).mp (by simp)) (by simp)
  | a :: t, b :: s, h1, h2, hm => by
    have hp1 := List.chain'_iff_pairwise.mp h1
    have hp2 := List.chain'_iff_pairwise.mp h2
    have hab : a = b := by
      rcases List.mem_cons.mp ((hm a).mp (by simp)) with h | h
      · exact h
      · rcases List.mem_cons.mp ((hm b).mpr (by simp)) with h' | h'
        · exact h'.symm
        · have hba : b < a := (List.pairwise_cons.mp hp2).1 a h
          have hab' : a < b := (List.pairwise_cons.mp hp1).1 b h'
          omega
    subst hab
    have hts : ∀ x, x ∈ t ↔ x ∈ s := by
      intro x
      constructor
      · intro hx
        have hax : a < x := (List.pairwise_cons.mp hp1).1 x hx
        rcases List.mem_cons.mp ((hm x).mp (List.mem_cons_of_mem _ hx)) with h | h
        · omega
        · exact h
      · intro hx
        have hax : a < x := (List.pairwise_cons.mp hp2).1 x hx
        rcases List.mem_cons.mp ((hm x).mpr (List.mem_cons_of_mem _ hx)) with h | h
        · omega
        · exact h
    rw [sorted_lt_ext (List.chain'_cons'.mp h1).2 (List.chain'_cons'.mp h2).2 hts]

/-- C8: D-label range formatting.  The three examples of the spec, and in
general: whenever every label parses as `D<n>`, the rendered parts are the
maximal runs of consecutive numeric suffixes of the (deduplicated, sorted)
label set, each rendered as `"Da"`/`"Da-Db"` and joined with `", "`. -/
theorem format_d_label_ranges_spec :
    format_d_label_ranges ["D1", "D2", "D3"] = "D1-D3" ∧
    format_d_label_ranges ["D1", "D3"] = "D1, D3" ∧
    format_d_label_ranges ["D1"] = "D1" ∧
    ∀ (labels : List String) (nums : List Nat) (n : Nat) (rest : List Nat),
      parseAll labels = some nums → sortedDedup nums = n :: rest →
      RunDecomp (sortedDedup nums) (rangesLoop n n rest) ∧
      format_d_label_ranges labels =
        String.intercalate ", " ((rangesLoop n n rest).map renderRange) := by
  refine ⟨by decide, by decide, by decide, ?_⟩
  intro labels nums n rest hparse hsd
  have hchain : List.Chain' (· < ·) (n :: rest) := by
    rw [← hsd]
    exact chain_lt_sortedDedup nums
  constructor
  · have := rangesLoop_decomp rest n n (le_refl n) hchain
    rw [hsd]
    have hr : rangeList n n ++ rest = n :: rest := by
      unfold rangeList
      simp [List.range']
    rw [← hr]
    exact this
  · unfold format_d_label_ranges
    rw [hparse]
    have hne : nums.isEmpty = false := by
      cases hn : nums
      · rw [hn] at hsd
        simp [sortedDedup] at hsd
      · rfl
    show (if nums.isEmpty = true then "" else
      match sortedDedup nums with
      | [] => ""
      | n :: rest => String.intercalate ", " ((rangesLoop n n rest).map renderRange)) = _
    rw [hne]
    simp only [Bool.false_eq_true, if_false]
    rw [hsd]

/-- C8 (witness): the general part of the formatting theorem applied to the
concrete label list `["D1", "D3"]`. -/
theorem format_d_label_ranges_witness :
    RunDecomp (sortedDedup [1, 3]) (rangesLoop 1 1 [3]) ∧
    format_d_label_ranges ["D1", "D3"] =
      String.intercalate ", " ((rangesLoop 1 1 [3]).map renderRange) :=
  format_d_label_ranges_spec.2.2.2 ["D1", "D3"] [1, 3] 1 [3] (by decide) (by decide)

/-- C10: the output of `_format_d_label_ranges` depends only on the set of
numeric suffixes: two label lists that parse to suffix lists with the same
members (permutations, duplicates) format identically; in particular
`["D3", "D1", "D2", "D2"]` also renders as `"D1-D3"`. -/
theorem format_d_label_ranges_set_invariant :
    (∀ (l₁ l₂ : List String) (ns₁ ns₂ : List Nat),
      parseAll l₁ = some ns₁ → parseAll l₂ = some ns₂ →
      (∀ x, x ∈ ns₁ ↔ x ∈ ns₂) →
      format_d_label_ranges l₁ = format_d_label_ranges l₂) ∧
    format_d_label_ranges ["D3", "D1", "D2", "D2"] = "D1-D3" := by
  refine ⟨?_, by decide⟩
  intro l₁ l₂ ns₁ ns₂ h1 h2 hm
  have hsd : sortedDedup ns₁ = sortedDedup ns₂ :=
    sorted_lt_ext (chain_lt_sortedDedup ns₁) (chain_lt_sortedDedup ns₂)
      (fun x => by rw [mem_sortedDedup, mem_sortedDedup]; exact hm x)
  have hempty : ns₁.isEmpty = ns₂.isEmpty := by
    cases he1 : ns₁ with
    | nil =>
      cases he2 : ns₂ with
      | nil => rfl
      | cons b s =>
        exfalso
        have hb := (hm b).mpr (by rw [he2]; simp)
        rw [he1] at hb
        simp at hb
    | cons a t =>
      cases he2 : ns₂ with
      | nil =>
        exfalso
        have ha := (hm a).mp (by rw [he1]; simp)
        rw [he2] at ha
        simp at ha
      | cons b s => rfl
  unfold format_d_label_ranges
  rw [h1, h2]
  show (if ns₁.isEmpty = true then "" else
      match sortedDedup ns₁ with
      | [] => ""
      | n :: rest => String.intercalate ", " ((rangesLoop n n rest).map renderRange)) =
    (if ns₂.isEmpty = true then "" else
      match sortedDedup ns₂ with
      | [] => ""
      | n :: rest => String.intercalate ", " ((rangesLoop n n rest).map renderRange))
  rw [hsd, hempty]

/-- C10 (witness): the set-invariance theorem applied to the permuted,
duplicated list `["D3", "D1", "D2", "D2"]` against `["D1", "D2", "D3"]`. -/
theorem format_d_label_ranges_set_invariant_witness :
    format_d_label_ranges ["D3", "D1", "D2", "D2"] = format_d_label_ranges ["D1", "D2", "D3"] :=
  format_d_label_ranges_set_invariant.1 ["D3", "D1", "D2", "D2"] ["D1", "D2", "D3"]
    [3, 1, 2, 2] [1, 2, 3] (by decide) (by decide)
    (by intro x; simp only [List.mem_cons, List.not_mem_nil, or_false]; omega)

/-! ### Claim C6: formal-requirements row post-processing
(fer_parser.py:819-836, the dedupe/merge stage of
`extract_formal_requirements_rows_from_pdf`) -/

/-- Drop exact-duplicate consecutive rows (fer_parser.py:819-824). -/
def dedupeConsec : List (String × String) → List (String × String)
  | [] => []
  | [r] => [r]
  | r :: r2 :: t => if r = r2 then dedupeConsec (r2 :: t) else r :: dedupeConsec (r2 :: t)

/-- The case-insensitive category key `ob.strip().lower()`
(fer_parser.py:829). -/
def rowKey (s : String) : List Char := (pyStrip s.data).map Char.toLower

/-- `f"{prev_rem}{sep}{rem}".strip()` with `sep = "\n" if prev_rem and rem
else ""` (fer_parser.py:831-832). -/
def joinRem (prev rem : String) : String :=
  String.mk (pyStrip (prev.data ++ (if prev ≠ "" ∧ rem ≠ "" then ['\n'] else []) ++ rem.data))

/-- The merge loop of fer_parser.py:826-834, with the accumulator kept in
reverse order (Python appends and mutates the last element). -/
def mergeLoop : List (String × String) → List (String × String) → List (String × String)
  | acc, [] => acc.reverse
  | acc, (ob, rem) :: t =>
    match acc with
    | (pob, prem) :: acc2 =>
      if rowKey pob = rowKey ob then mergeLoop ((pob, joinRem prem rem) :: acc2) t
      else mergeLoop ((ob, rem) :: (pob, prem) :: acc2) t
    | [] => mergeLoop [(ob, rem)] t

/-- The full post-processing stage (fer_parser.py:819-836): dedupe, then
merge adjacent rows with equal case-insensitive category. -/
def postprocess_formal_rows (rows : List (String × String)) : List (String × String) :=
  mergeLoop [] (dedupeConsec rows)

example :
    postprocess_formal_rows [("Form 28", "A"), ("Form 28", "B")] = [("Form 28", "A\nB")] := by
  decide

theorem dedupeConsec_head :
    ∀ (r : String × String) (t : List (String × String)),
      (dedupeConsec (r :: t)).head? = some r
  | _, [] => rfl
  | r, r2 :: t => by
    unfold dedupeConsec
    split_ifs with h
    · rw [h]
      exact dedupeConsec_head r2 t
    · rfl

theorem chain_ne_dedupeConsec :
    ∀ rows : List (String × String), List.Chain' (· ≠ ·) (dedupeConsec rows)
  | [] => List.chain'_nil
  | [r] => List.chain'_singleton r
  | r :: r2 :: t => by
    unfold dedupeConsec
    split_ifs with h
    · exact chain_ne_dedupeConsec (r2 :: t)
    · refine List.chain'_cons'.mpr ⟨?_, chain_ne_dedupeConsec (r2 :: t)⟩
      intro y hy
      have hy' : (dedupeConsec (r2 :: t)).head? = some y := hy
      rw [dedupeConsec_head r2 t] at hy'
      rw [← Option.some.inj hy']
      exact h

/-- Relation "adjacent categories differ case-insensitively". -/
def keyNe (a b : String × String) : Prop := rowKey a.1 ≠ rowKey b.1

theorem mergeLoop_chain :
    ∀ (t acc : List (String × String)),
      List.Chain' (fun a b => keyNe b a) acc →
      List.Chain' keyNe (mergeLoop acc t)
  | [], acc => fun h => by
    rw [mergeLoop]
    exact List.chain'_reverse.mpr h
  | (ob, rem) :: t, [] => fun _ =>
    mergeLoop_chain t [(ob, rem)] (List.chain'_singleton _)
  | (ob, rem) :: t, (pob, prem) :: acc2 => fun h => by
    rw [mergeLoop]
    split_ifs with hk
    · refine mergeLoop_chain t _ (List.chain'_cons'.mpr ⟨?_, (List.chain'_cons'.mp h).2⟩)
      intro y hy
      exact (List.chain'_cons'.mp h).1 y hy
    · refine mergeLoop_chain t _ (List.chain'_cons'.mpr ⟨?_, h⟩)
      intro y hy
      have hy' : ((pob, prem) :: acc2).head? = some y := hy
      simp only [List.head?_cons, Option.some.injEq] at hy'
      rw [← hy']
      intro he
      exact hk (show rowKey pob = rowKey ob from he)

/-- C6: formal-row post-processing.  Contiguous rows with equal category
(case-insensitively) merge by newline-joining their remarks; a
non-contiguous reoccurrence does not merge; exact-duplicate consecutive
rows are dropped.  Universally, the deduped sequence has no two equal
adjacent rows and the final sequence has no two adjacent rows with the same
case-insensitive category. -/
theorem postprocess_formal_rows_spec :
    postprocess_formal_rows [("Form 28", "A"), ("Form 28", "B")] = [("Form 28", "A\nB")] ∧
    postprocess_formal_rows [("Form 28", "A"), ("Other Deficiencies", "C"), ("Form 28", "B")] =
      [("Form 28", "A"), ("Other Deficiencies", "C"), ("Form 28", "B")] ∧
    postprocess_formal_rows [("Form 28", "A"), ("Form 28", "A"), ("form 28", "B")] =
      [("Form 28", "A\nB")] ∧
    (∀ rows : List (String × String), List.Chain' (· ≠ ·) (dedupeConsec rows)) ∧
    (∀ rows : List (String × String), List.Chain' keyNe (postprocess_formal_rows rows)) := by
  refine ⟨by decide, by decide, by decide, chain_ne_dedupeConsec, ?_⟩
  intro rows
  exact mergeLoop_chain (dedupeConsec rows) [] List.chain'_nil

/-! ### Claim C4: `_extract_numbered_claims` (reply_generator.py:175-193) -/

/-- The character class `[\.\):]` after the claim numeral. -/
def isClaimPunct (c : Char) : Bool := c = '.' || c = ')' || c = ':'

/-- Match `\s*(\d+)[\.\):]\s*` at the head of `s` (the multiline `^` anchor
is checked by the caller).  All starred classes are disjoint from their
successors, so maximal munch is exact.  Returns the captured digit group
and the remainder after the match. -/
def numMatchAt (s : List Char) : Option (List Char × List Char) :=
  if ((s.dropWhile isPySpace).takeWhile isDigitCh).isEmpty then none
  else
    match (s.dropWhile isPySpace).dropWhile isDigitCh with
    | p :: s3 =>
      if isClaimPunct p then
        some ((s.dropWhile isPySpace).takeWhile isDigitCh, s3.dropWhile isPySpace)
      else none
    | [] => none

/-- The multiline `^` anchor of `(?im)^\s*(\d+)[\.\):]\s*`: position 0 or
just after a newline of the subject string. -/
def atLineStart (l : List Char) (i : Nat) : Bool :=
  i = 0 || l[i - 1]? = some '\n'

/-- `pat.finditer(text)`: scan positions left to right, at each anchored
position try the pattern, and resume after the end of every (non-empty)
match.  An entry is `(start, digits, end)`.  Fuel `l.length` suffices since
every step advances the position. -/
def scanClaims (l : List Char) : Nat → Nat → List (Nat × List Char × Nat)
  | 0, _ => []
  | fuel + 1, i =>
    if l.length ≤ i then []
    else if atLineStart l i then
      match numMatchAt (l.drop i) with
      | some (ds, rem) =>
        (i, ds, i + ((l.drop i).length - rem.length)) ::
          scanClaims l fuel (i + ((l.drop i).length - rem.length))
      | none => scanClaims l fuel (i + 1)
    else scanClaims l fuel (i + 1)

/-- `matches[i + 1].start() if i + 1 < len(matches) else len(text)`. -/
def nextStart (l : List Char) : List (Nat × List Char × Nat) → Nat
  | (s2, _, _) :: _ => s2
  | [] => l.length

/-- The block-building loop of reply_generator.py:185-193: each block runs
from its match's start to the next match's start (or end of text), is
stripped, and empty blocks are skipped. -/
def claimsFromMatches (l : List Char) : List (Nat × List Char × Nat) → List (Nat × String)
  | [] => []
  | (s, ds, _) :: rest =>
    if (pyStrip ((l.take (nextStart l rest)).drop s)).isEmpty then claimsFromMatches l rest
    else (digitsToNat ds, String.mk (pyStrip ((l.take (nextStart l rest)).drop s))) ::
      claimsFromMatches l rest

/-- `_extract_numbered_claims` (reply_generator.py:175-193). -/
def extract_numbered_claims (amended : String) : List (Nat × String) :=
  if (pyStrip amended.data).isEmpty then []
  else claimsFromMatches amended.data (scanClaims amended.data amended.data.length 0)

example :
    extract_numbered_claims "1. A method\n3. Method of claim 1" =
      [(1, "1. A method"), (3, "3. Method of claim 1")] := by decide
example : extract_numbered_claims "no claims here" = [] := by decide
example : extract_numbered_claims "1.\n 2. b" = [(1, "1.\n 2. b")] := by decide

/-- A line that matches the leading-numeral pattern `^\s*\d+[\.\):]`. -/
def isNumberedLine (line : List Char) : Bool := (numMatchAt line).isSome

/-- Number of leading-numeral lines of the text (the unit the claim counts
by). -/
def countNumberedLines (l : List Char) : Nat :=
  ((l.splitOn '\n').filter isNumberedLine).length

theorem numMatchAt_some {s ds rem : List Char} (h : numMatchAt s = some (ds, rem)) :
    (∃ w1 p w2, s = w1 ++ ds ++ p :: w2 ++ rem) ∧ ds ≠ [] ∧
      ∀ c ∈ ds, isDigitCh c = true := by
  unfold numMatchAt at h
  split_ifs at h with hne
  split at h
  · rename_i p s3 hdrop
    split_ifs at h with hp
    obtain ⟨hds, hrem⟩ : (s.dropWhile isPySpace).takeWhile isDigitCh = ds ∧
        s3.dropWhile isPySpace = rem := by
      have := Option.some.inj h
      exact ⟨congrArg Prod.fst this, congrArg Prod.snd this⟩
    have e1 : s = s.takeWhile isPySpace ++ s.dropWhile isPySpace :=
      (List.takeWhile_append_dropWhile ..).symm
    have e2 : s.dropWhile isPySpace = ds ++ (p :: s3) := by
      conv_lhs =>
        rw [← List.takeWhile_append_dropWhile (p := isDigitCh) (l := s.dropWhile isPySpace)]
      rw [hds, hdrop]
    obtain ⟨w2, hw2⟩ : ∃ w2, s3 = w2 ++ rem := by
      refine ⟨s3.takeWhile isPySpace, ?_⟩
      conv_lhs => rw [← List.takeWhile_append_dropWhile (p := isPySpace) (l := s3)]
      rw [hrem]
    refine ⟨⟨s.takeWhile isPySpace, p, w2, ?_⟩, ?_, ?_⟩
    · conv_lhs => rw [e1, e2, hw2]
      simp
    · rw [← hds]
      simpa using hne
    · intro c hc
      rw [← hds] at hc
      exact List.mem_takeWhile_imp hc
  · exact absurd h (by simp)

theorem isDigitCh_not_pySpace {c : Char} (h : isDigitCh c = true) : isPySpace c = false := by
  cases hp : isPySpace c
  · rfl
  · rw [pySpace_not_digit c hp] at h
    cases h

theorem mem_dropWhile_of_not {p : Char → Bool} {c : Char} {l : List Char}
    (hc : c ∈ l) (hp : p c = false) : c ∈ l.dropWhile p := by
  rcases List.mem_append.mp
      (by rw [List.takeWhile_append_dropWhile (p := p) (l := l)]; exact hc :
        c ∈ l.takeWhile p ++ l.dropWhile p) with h | h
  · rw [List.mem_takeWhile_imp h] at hp
    cases hp
  · exact h

theorem pyStrip_ne_nil {l : List Char} {c : Char} (hc : c ∈ l) (hp : isPySpace c = false) :
    pyStrip l ≠ [] := by
  intro he
  have h1 : c ∈ l.dropWhile isPySpace := mem_dropWhile_of_not hc hp
  have h2 := List.rdropWhile_eq_nil_iff.mp he
  rw [h2 c h1] at hp
  cases hp

theorem suffix_drop_eq {s rem : List Char} (h : rem <:+ s) :
    s.drop (s.length - rem.length) = rem := by
  obtain ⟨t, ht⟩ := h
  have hlen : s.length - rem.length = t.length := by
    rw [← ht]
    simp
  rw [hlen, ← ht, List.drop_left]

theorem numMatchAt_rem_suffix {s ds rem : List Char} (h : numMatchAt s = some (ds, rem)) :
    rem <:+ s := by
  obtain ⟨⟨w1, p, w2, hs⟩, -, -⟩ := numMatchAt_some h
  exact ⟨w1 ++ ds ++ p :: w2, by rw [hs]⟩

/-- Invariant of the claims scanner: every entry starts at or after the
scan position, its recorded end is consistent with a `numMatchAt` success
at its start, and its span is non-empty and inside the text. -/
theorem scanClaims_inv (l : List Char) :
    ∀ (fuel i : Nat), ∀ m ∈ scanClaims l fuel i,
      i ≤ m.1 ∧ numMatchAt (l.drop m.1) = some (m.2.1, l.drop m.2.2) ∧
        m.1 < m.2.2 ∧ m.2.2 ≤ l.length
  | 0, i => by simp [scanClaims]
  | fuel + 1, i => by
    intro m hm
    unfold scanClaims at hm
    split_ifs at hm with hlen hanchor
    · cases hm
    · rcases hmatch : numMatchAt (l.drop i) with _ | ⟨ds, rem⟩
      · rw [hmatch] at hm
        have := scanClaims_inv l fuel (i + 1) m hm
        exact ⟨by omega, this.2⟩
      · rw [hmatch] at hm
        have hsuf := numMatchAt_rem_suffix hmatch
        have hlrem : rem.length ≤ (l.drop i).length := hsuf.length_le
        have hdl : (l.drop i).length = l.length - i := by simp
        have hdropped : (l.drop i).drop ((l.drop i).length - rem.length) = rem :=
          suffix_drop_eq hsuf
        obtain ⟨⟨w1, p, w2, hs⟩, hds, -⟩ := numMatchAt_some hmatch
        have hlen0 := congrArg List.length hs
        simp only [List.length_append, List.length_cons] at hlen0
        have hds1 : 1 ≤ ds.length := List.length_pos.mpr hds
        have hcons : 1 ≤ (l.drop i).length - rem.length := by omega
        rcases List.mem_cons.mp hm with hm1 | hm1
        · subst hm1
          refine ⟨le_refl i, ?_, ?_, ?_⟩
          · show numMatchAt (l.drop i) =
              some (ds, l.drop (i + ((l.drop i).length - rem.length)))
            rw [hmatch]
            have hd : l.drop (i + ((l.drop i).length - rem.length)) = rem := by
              rw [← List.drop_drop, hdropped]
            rw [hd]
          · show i < i + ((l.drop i).length - rem.length)
            omega
          · show i + ((l.drop i).length - rem.length) ≤ l.length
            omega
        · have := scanClaims_inv l fuel (i + ((l.drop i).length - rem.length)) m hm1
          exact ⟨by omega, this.2⟩
    · have := scanClaims_inv l fuel (i + 1) m hm
      exact ⟨by omega, this.2⟩

/-- Matches are emitted in document order: each entry ends at or before the
next entry's start (and starts strictly increase). -/
theorem scanClaims_chain (l : List Char) :
    ∀ (fuel i : Nat),
      List.Chain' (fun a b : Nat × List Char × Nat => a.2.2 ≤ b.1 ∧ a.1 < b.1)
        (scanClaims l fuel i)
  | 0, i => by simp [scanClaims]
  | fuel + 1, i => by
    unfold scanClaims
    split_ifs with hlen hanchor
    · exact List.chain'_nil
    · rcases hmatch : numMatchAt (l.drop i) with _ | ⟨ds, rem⟩
      · exact scanClaims_chain l fuel (i + 1)
      · refine List.chain'_cons'.mpr ⟨?_, scanClaims_chain l fuel _⟩
        intro b hb
        have hbm := List.mem_of_mem_head? hb
        have hinv := scanClaims_inv l fuel _ b hbm
        have hlt : i < i + ((l.drop i).length - rem.length) := by
          obtain ⟨⟨w1, p, w2, hs⟩, hds, -⟩ := numMatchAt_some hmatch
          have hlen0 := congrArg List.length hs
          simp only [List.length_append, List.length_cons] at hlen0
          have hds1 : 1 ≤ ds.length := List.length_pos.mpr hds
          omega
        exact ⟨hinv.1, by omega⟩
    · exact scanClaims_chain l fuel (i + 1)

/-- If the text is all whitespace, the scanner finds nothing. -/
theorem scanClaims_all_ws {l : List Char} (h : ∀ c ∈ l, isPySpace c = true) :
    ∀ (fuel i : Nat), scanClaims l fuel i = []
  | 0, _ => rfl
  | fuel + 1, i => by
    unfold scanClaims
    have hmatch : numMatchAt (l.drop i) = none := by
      have hdw : (l.drop i).dropWhile isPySpace = [] := by
        rw [List.dropWhile_eq_nil_iff]
        intro x hx
        exact h x (List.mem_of_mem_drop hx)
      unfold numMatchAt
      rw [hdw]
      simp
    split_ifs with hlen hanchor
    · rfl
    · rw [hmatch]
      exact scanClaims_all_ws h fuel (i + 1)
    · exact scanClaims_all_ws h fuel (i + 1)

theorem pyStrip_nil_all_ws {l : List Char} (h : pyStrip l = []) :
    ∀ c ∈ l, isPySpace c = true := by
  intro c hc
  have hsplit := List.takeWhile_append_dropWhile (p := isPySpace) (l := l)
  rcases List.mem_append.mp (by rw [hsplit]; exact hc :
      c ∈ l.takeWhile isPySpace ++ l.dropWhile isPySpace) with h1 | h1
  · exact List.mem_takeWhile_imp h1
  · exact List.rdropWhile_eq_nil_iff.mp h c h1

/-- One kept pair per match: the block of each match contains its digit
group, hence survives the strip, so `claimsFromMatches` skips nothing. -/
theorem claimsFromMatches_map (l : List Char) :
    ∀ ms : List (Nat × List Char × Nat),
      (∀ m ∈ ms, numMatchAt (l.drop m.1) = some (m.2.1, l.drop m.2.2) ∧
        m.1 < m.2.2 ∧ m.2.2 ≤ l.length) →
      List.Chain' (fun a b : Nat × List Char × Nat => a.2.2 ≤ b.1 ∧ a.1 < b.1) ms →
      (claimsFromMatches l ms).map Prod.fst = ms.map (fun m => digitsToNat m.2.1)
  | [] => fun _ _ => rfl
  | (s0, ds, e) :: rest => fun hinv hch => by
    have hm0 := hinv (s0, ds, e) (List.mem_cons_self _ _)
    have hmatch : numMatchAt (l.drop s0) = some (ds, l.drop e) := hm0.1
    have hlt : s0 < e := hm0.2.1
    have hle : e ≤ l.length := hm0.2.2
    have hnxt : e ≤ nextStart l rest := by
      rcases rest with _ | ⟨⟨s2, ds2, e2⟩, rest2⟩
      · exact hle
      · exact ((List.chain'_cons'.mp hch).1 _ rfl).1
    obtain ⟨⟨w1, p, w2, hs⟩, hds, hdig⟩ := numMatchAt_some hmatch
    have hrem : (l.drop e).length = l.length - e := by simp
    have hslen : (l.drop s0).length = l.length - s0 := by simp
    have hlen0 := congrArg List.length hs
    simp only [List.length_append, List.length_cons] at hlen0
    set nxt := nextStart l rest with hnxtdef
    have hK : w1.length + 1 ≤ nxt - s0 := by
      have hds1 : 1 ≤ ds.length := List.length_pos.mpr hds
      omega
    obtain ⟨d, ds', hdsc⟩ : ∃ d ds', ds = d :: ds' := by
      rcases ds with _ | ⟨d, ds'⟩
      · exact absurd rfl hds
      · exact ⟨d, ds', rfl⟩
    have hdmem : d ∈ (l.take nxt).drop s0 := by
      rw [List.drop_take, hs]
      rw [show w1 ++ ds ++ p :: w2 ++ l.drop e = w1 ++ (ds ++ p :: w2 ++ l.drop e) by simp]
      rw [List.take_append_eq_append_take, List.take_of_length_le (by omega)]
      rw [hdsc]
      rcases hK' : nxt - s0 - w1.length with _ | k
      · omega
      · simp
    have hblock : (pyStrip ((l.take nxt).drop s0)).isEmpty = false := by
      have hdd : isDigitCh d = true := hdig d (by rw [hdsc]; simp)
      have := pyStrip_ne_nil hdmem (isDigitCh_not_pySpace hdd)
      cases hb : (pyStrip ((l.take nxt).drop s0)).isEmpty
      · rfl
      · rw [List.isEmpty_iff] at hb
        exact absurd hb this
    show (if (pyStrip ((l.take (nextStart l rest)).drop s0)).isEmpty then
        claimsFromMatches l rest
      else (digitsToNat ds, String.mk (pyStrip ((l.take (nextStart l rest)).drop s0))) ::
        claimsFromMatches l rest).map Prod.fst = _
    rw [← hnxtdef, hblock]
    simp only [Bool.false_eq_true, if_false, List.map_cons, List.map]
    rw [claimsFromMatches_map l rest (fun m hm => hinv m (List.mem_cons_of_mem _ hm))
      (List.chain'_cons'.mp hch).2]

/-- C4 (amended): the extractor returns exactly one `(number, text)` pair
per scanner match, in document order (match starts strictly increase), with
each number parsed from its own numeral; when the scanner finds nothing the
result is empty.  The spec's gap example holds: numbers `[1, 3, 4]` are
preserved without renumbering. -/
theorem extract_numbered_claims_spec :
    (extract_numbered_claims "1. A method...\n3. The method of claim 1...\n4. ...").map
        Prod.fst = [1, 3, 4] ∧
    (∀ s : String,
      (extract_numbered_claims s).map Prod.fst =
        (scanClaims s.data s.data.length 0).map (fun m => digitsToNat m.2.1)) ∧
    (∀ s : String,
      List.Chain' (fun a b : Nat × List Char × Nat => a.1 < b.1)
        (scanClaims s.data s.data.length 0)) := by
  refine ⟨by decide, ?_, ?_⟩
  · intro s
    unfold extract_numbered_claims
    split_ifs with hempty
    · rw [List.isEmpty_iff] at hempty
      rw [scanClaims_all_ws (pyStrip_nil_all_ws hempty)]
      rfl
    · exact claimsFromMatches_map s.data _
        (fun m hm => (scanClaims_inv s.data _ _ m hm).2)
        (scanClaims_chain s.data _ _)
  · intro s
    exact (scanClaims_chain s.data _ _).imp (fun _ _ h => h.2)

/-- C4 (counterexample): the claim "one pair per leading-numeral line" is
false.  In `"1.\n 2. b"` both lines are leading-numeral lines, but the
first match's trailing `\s*` consumes the newline and the second line's
leading space, so position scanning never sees the second line's `^` anchor
and only one pair is returned (the second claim is absorbed into the first
block). -/
theorem extract_numbered_claims_cex :
    countNumberedLines "1.\n 2. b".data = 2 ∧
    extract_numbered_claims "1.\n 2. b" = [(1, "1.\n 2. b")] := by decide

/-! ### Claim C5: `_extract_prior_arts` (fer_parser.py:839-849)

The citation regex (label, document number, publication date; the date
separators are dash or slash)
`\b(D\d{1,3})\s*[:\-]\s*([A-Z]{2}[A-Z0-9]{4,})\s*(?:\(|Pub\s*Date\s*[:\-]?\s*)?(date)`
with `re.I` is translated into a scanner with the same greedy and
backtracking semantics: starred classes that are disjoint from their
successors use maximal munch; the bounded greedy groups (`\d{1,3}`,
`[A-Z0-9]{4,}`) try the longest length first; the optional group tries its
alternatives in pattern order. -/

/-- `PriorArt` (fer_parser.py:11-15). -/
structure PriorArt where
  label : String
  docno : String
  pub_date : String
deriving DecidableEq, Repr

/-- ASCII letter ([A-Z] under `re.I`). -/
def isAsciiAlpha (c : Char) : Bool := ('A' ≤ c && c ≤ 'Z') || ('a' ≤ c && c ≤ 'z')

/-- [A-Z0-9] under `re.I`. -/
def isAlnumCh (c : Char) : Bool := isAsciiAlpha c || isDigitCh c

/-- The class `[:\-]`. -/
def isColonDash (c : Char) : Bool := c = ':' || c = '-'

/-- The date separator class: dash or slash. -/
def isDateSep (c : Char) : Bool := c = '-' || c = '/'

/-- The regex word class `\w` (ASCII range), for `\b`. -/
def isWordCh (c : Char) : Bool := isAlnumCh c || c = '_'

/-- The fixed-width date capture (two digits, separator, two digits,
separator, four digits); returns (date, remainder). -/
def parseDate : List Char → Option (List Char × List Char)
  | d1 :: d2 :: s1 :: d3 :: d4 :: s2 :: y1 :: y2 :: y3 :: y4 :: rest =>
    if isDigitCh d1 && isDigitCh d2 && isDateSep s1 && isDigitCh d3 && isDigitCh d4 &&
        isDateSep s2 && isDigitCh y1 && isDigitCh y2 && isDigitCh y3 && isDigitCh y4 then
      some ([d1, d2, s1, d3, d4, s2, y1, y2, y3, y4], rest)
    else none
  | _ => none

/-- The `Pub\s*Date\s*[:\-]?\s*` alternative of the optional group, with the
following date capture folded in (the `[:\-]?` backtracks into the date). -/
def pubDateAlt (u : List Char) : Option (List Char × List Char) :=
  match matchLit ['P', 'U', 'B'] u with
  | none => none
  | some u2 =>
    match matchLit ['D', 'A', 'T', 'E'] (u2.dropWhile isPySpace) with
    | none => none
    | some u4 =>
      (match u4.dropWhile isPySpace with
       | c :: u6 =>
         if isColonDash c then parseDate (u6.dropWhile isPySpace) else none
       | [] => none) <|>
        parseDate (u4.dropWhile isPySpace)

/-- `\s*(?:\(|Pub\s*Date\s*[:\-]?\s*)?` followed by the date capture;
alternatives tried in pattern order, skipping the group last. -/
def parseGroupAndDate (t : List Char) : Option (List Char × List Char) :=
  (match t.dropWhile isPySpace with
   | '(' :: u1 => parseDate u1
   | _ => none) <|>
    pubDateAlt (t.dropWhile isPySpace) <|>
    parseDate (t.dropWhile isPySpace)

/-- Greedy `[A-Z0-9]{4,}` tail of the document-number capture: try the
longest tail first, backtracking down to 4 characters.  Returns
(docno, date, remainder). -/
def docnoLoop (a b : Char) (t4 : List Char) : Nat → Option (List Char × List Char × List Char)
  | 0 => none
  | k + 1 =>
    if k + 1 < 4 then none
    else
      match parseGroupAndDate (t4.drop (k + 1)) with
      | some (date, rest) => some (a :: b :: t4.take (k + 1), date, rest)
      | none => docnoLoop a b t4 k

/-- `\s*[:\-]\s*([A-Z]{2}[A-Z0-9]{4,})...` after the label capture. -/
def parseSepDocno (t : List Char) : Option (List Char × List Char × List Char) :=
  match t.dropWhile isPySpace with
  | c :: t2 =>
    if isColonDash c then
      match t2.dropWhile isPySpace with
      | a :: b :: t4 =>
        if isAsciiAlpha a && isAsciiAlpha b then
          docnoLoop a b t4 (t4.takeWhile isAlnumCh).length
        else none
      | _ => none
    else none
  | [] => none

/-- Greedy `\d{1,3}` of the label capture: longest first. -/
def digitLoop (s1 : List Char) : Nat → Option (List Char × List Char × List Char × List Char)
  | 0 => none
  | k + 1 =>
    match parseSepDocno (s1.drop (k + 1)) with
    | some (docno, date, rest) => some (s1.take (k + 1), docno, date, rest)
    | none => digitLoop s1 k

/-- Try the whole citation pattern at the head of `s` (the `\b` anchor is
checked by the caller).  Returns (label, docno, date, remainder). -/
def matchArtAt (s : List Char) : Option (List Char × List Char × List Char × List Char) :=
  match s with
  | c :: s1 =>
    if c = 'D' || c = 'd' then
      match digitLoop s1 (min 3 (s1.takeWhile isDigitCh).length) with
      | some (ds, docno, date, rest) => some (c :: ds, docno, date, rest)
      | none => none
    else none
  | [] => none

/-- The `\b` anchor before the label's `D` (which is a word character):
position 0 or a non-word character before it. -/
def boundaryOk (l : List Char) (i : Nat) : Bool :=
  i = 0 ||
    (match l[i - 1]? with
     | some c => !isWordCh c
     | none => true)

/-- `re.finditer` over the citation pattern: entries `(label, docno, date)`
in match order. -/
def scanArts (l : List Char) : Nat → Nat → List (List Char × List Char × List Char)
  | 0, _ => []
  | fuel + 1, i =>
    if l.length ≤ i then []
    else if boundaryOk l i then
      match matchArtAt (l.drop i) with
      | some (lab, docno, date, rest) =>
        (lab, docno, date) :: scanArts l fuel (i + ((l.drop i).length - rest.length))
      | none => scanArts l fuel (i + 1)
    else scanArts l fuel (i + 1)

/-- `PriorArt(label=lab.upper(), docno=m.group(2), pub_date=m.group(3))`
(fer_parser.py:846-848). -/
def artsOf (ms : List (List Char × List Char × List Char)) : List PriorArt :=
  ms.map (fun m => ⟨String.mk (m.1.map Char.toUpper), String.mk m.2.1, String.mk m.2.2⟩)

/-- The `if lab not in arts` dict insertion: first occurrence of each label
wins, in first-occurrence order (fer_parser.py:840-848). -/
def dedupeArts : List String → List PriorArt → List PriorArt
  | _, [] => []
  | seen, a :: rest =>
    if a.label ∈ seen then dedupeArts seen rest
    else a :: dedupeArts (a.label :: seen) rest

/-- Python string `<`: lexicographic comparison by code point, a proper
prefix comparing less. -/
def lexLt : List Char → List Char → Bool
  | [], [] => false
  | [], _ :: _ => true
  | _ :: _, [] => false
  | a :: s, b :: t => if a = b then lexLt s t else decide (a < b)

/-- Insertion step of `sorted(..., key=lambda a: a.label)`; since the
labels are distinct after the dict pass, insertion sort produces exactly
Python's sorted order. -/
def insertArt (x : PriorArt) : List PriorArt → List PriorArt
  | [] => [x]
  | y :: t => if lexLt x.label.data y.label.data then x :: y :: t else y :: insertArt x t

def sortArts (l : List PriorArt) : List PriorArt := l.foldr insertArt []

/-- `_extract_prior_arts` (fer_parser.py:839-849). -/
def extract_prior_arts (text : String) : List PriorArt :=
  sortArts (dedupeArts [] (artsOf (scanArts text.data text.data.length 0)))

example :
    extract_prior_arts "D1: US1234567A (01/02/2019" =
      [⟨"D1", "US1234567A", "01/02/2019"⟩] := by decide
example :
    extract_prior_arts "D1- EP0012345 Pub Date: 11/12/2013 and D1: XX99999 01/01/2000" =
      [⟨"D1", "EP0012345", "11/12/2013"⟩] := by decide

theorem uint32_lt_iff_toNat {a b : UInt32} : a < b ↔ a.toNat < b.toNat := by
  simp [UInt32.lt_def, BitVec.lt_def, UInt32.toNat]

theorem char_toNat_inj {a b : Char} (h : a.toNat = b.toNat) : a = b := by
  have ha := Char.ofNat_toNat a
  rw [h, Char.ofNat_toNat b] at ha
  exact ha.symm

theorem string_data_inj {s t : String} (h : s.data = t.data) : s = t := by
  cases s
  cases t
  exact congrArg String.mk h

theorem lexLt_total : ∀ (u v : List Char), u ≠ v → lexLt u v = true ∨ lexLt v u = true
  | [], [] => fun h => absurd rfl h
  | [], _ :: _ => fun _ => Or.inl rfl
  | _ :: _, [] => fun _ => Or.inr rfl
  | a :: s, b :: t => fun h => by
    by_cases hab : a = b
    · subst hab
      have hst : s ≠ t := fun he => h (by rw [he])
      have hrec := lexLt_total s t hst
      have e1 : lexLt (a :: s) (a :: t) = lexLt s t := by simp [lexLt]
      have e2 : lexLt (a :: t) (a :: s) = lexLt t s := by simp [lexLt]
      rw [e1, e2]
      exact hrec
    · have hn : a.toNat ≠ b.toNat := fun he => hab (char_toNat_inj he)
      have hba : ¬b = a := fun he => hab he.symm
      have e1 : lexLt (a :: s) (b :: t) = decide (a < b) := by simp [lexLt, hab]
      have e2 : lexLt (b :: t) (a :: s) = decide (b < a) := by simp [lexLt, hba]
      rw [e1, e2]
      have ea : a.val.toNat = a.toNat := rfl
      have eb : b.val.toNat = b.toNat := rfl
      rcases Nat.lt_or_ge a.toNat b.toNat with hlt | hge
      · left
        simp only [decide_eq_true_eq]
        show a.val < b.val
        rw [uint32_lt_iff_toNat, ea, eb]
        exact hlt
      · right
        simp only [decide_eq_true_eq]
        show b.val < a.val
        rw [uint32_lt_iff_toNat, ea, eb]
        omega

/-- The strict label order used by the sort. -/
def artLt (a b : PriorArt) : Prop := lexLt a.label.data b.label.data = true

theorem mem_insertArt {x a : PriorArt} :
    ∀ {l : List PriorArt}, x ∈ insertArt a l ↔ x = a ∨ x ∈ l
  | [] => by simp [insertArt]
  | y :: t => by
    unfold insertArt
    split_ifs with h1
    · simp only [List.mem_cons]
    · rw [List.mem_cons, mem_insertArt (l := t), List.mem_cons]
      tauto

theorem insertArt_chain {a : PriorArt} :
    ∀ {l : List PriorArt}, List.Chain' artLt l →
      (∀ y ∈ l, a.label ≠ y.label) → List.Chain' artLt (insertArt a l)
  | [], _, _ => List.chain'_singleton a
  | y :: t, hch, hne => by
    unfold insertArt
    split_ifs with h1
    · exact List.chain'_cons.mpr ⟨h1, hch⟩
    · refine List.chain'_cons'.mpr ⟨?_, insertArt_chain (List.chain'_cons'.mp hch).2
        (fun z hz => hne z (List.mem_cons_of_mem _ hz))⟩
      intro z hz
      have hz' : (insertArt a t).head? = some z := hz
      have hya : artLt y a := by
        have hne' : a.label.data ≠ y.label.data := by
          intro he
          exact hne y (by simp) (string_data_inj he)
        rcases lexLt_total a.label.data y.label.data hne' with hlt | hlt
        · exact absurd hlt (by simpa using h1)
        · exact hlt
      rcases t with _ | ⟨w, t2⟩
      · simp only [insertArt, List.head?_cons, Option.some.injEq] at hz'
        rw [← hz']
        exact hya
      · unfold insertArt at hz'
        split_ifs at hz' with g1 <;>
          simp only [List.head?_cons, Option.some.injEq] at hz' <;> rw [← hz']
        · exact hya
        · exact (List.chain'_cons'.mp hch).1 w rfl

theorem mem_sortArts {x : PriorArt} : ∀ {l : List PriorArt}, x ∈ sortArts l → x ∈ l
  | [], h => h
  | a :: t, h => by
    have h' : x ∈ insertArt a (sortArts t) := h
    rcases mem_insertArt.mp h' with h1 | h1
    · simp [h1]
    · exact List.mem_cons_of_mem _ (mem_sortArts h1)

theorem sortArts_chain :
    ∀ l : List PriorArt, l.Pairwise (fun u v => u.label ≠ v.label) →
      List.Chain' artLt (sortArts l)
  | [], _ => List.chain'_nil
  | a :: t, hp => by
    show List.Chain' artLt (insertArt a (sortArts t))
    refine insertArt_chain (sortArts_chain t (List.pairwise_cons.mp hp).2) ?_
    intro y hy
    exact (List.pairwise_cons.mp hp).1 y (mem_sortArts hy)

theorem dedupeArts_find :
    ∀ (arts : List PriorArt) (seen : List String), ∀ a ∈ dedupeArts seen arts,
      a.label ∉ seen ∧ arts.find? (fun b => b.label == a.label) = some a
  | [], _ => by simp [dedupeArts]
  | b :: rest, seen => by
    intro a ha
    unfold dedupeArts at ha
    split_ifs at ha with hmem
    · obtain ⟨hnot, hfind⟩ := dedupeArts_find rest seen a ha
      have hbl : b.label ≠ a.label := by
        intro he
        rw [he] at hmem
        exact hnot hmem
      refine ⟨hnot, ?_⟩
      rw [List.find?_cons_of_neg, hfind]
      simp [hbl]
    · rcases List.mem_cons.mp ha with h1 | h1
      · subst h1
        exact ⟨hmem, by rw [List.find?_cons_of_pos]; simp⟩
      · obtain ⟨hnot, hfind⟩ := dedupeArts_find rest (b.label :: seen) a h1
        have hbl : b.label ≠ a.label := by
          intro he
          exact hnot (by rw [← he]; exact List.mem_cons_self _ _)
        refine ⟨fun hs => hnot (List.mem_cons_of_mem _ hs), ?_⟩
        rw [List.find?_cons_of_neg, hfind]
        simp [hbl]

theorem dedupeArts_labels :
    ∀ (arts : List PriorArt) (seen : List String),
      (dedupeArts seen arts).Pairwise (fun u v => u.label ≠ v.label)
  | [], _ => List.Pairwise.nil
  | b :: rest, seen => by
    unfold dedupeArts
    split_ifs with hmem
    · exact dedupeArts_labels rest seen
    · refine List.pairwise_cons.mpr ⟨?_, dedupeArts_labels rest (b.label :: seen)⟩
      intro y hy
      have := (dedupeArts_find rest (b.label :: seen) y hy).1
      intro he
      exact this (by rw [← he]; exact List.mem_cons_self _ _)

/-- C5 (amended): prior-art extraction enforces label uniqueness with the
first occurrence winning — every returned reference is the first regex
match with its label — and the returned list is sorted by Python string
comparison of the (uppercased) labels, i.e. lexicographically by code
point, not by numeric suffix. -/
theorem extract_prior_arts_spec (text : String) :
    List.Chain' artLt (extract_prior_arts text) ∧
    ∀ a ∈ extract_prior_arts text,
      (artsOf (scanArts text.data text.data.length 0)).find?
        (fun b => b.label == a.label) = some a := by
  constructor
  · exact sortArts_chain _ (dedupeArts_labels (artsOf (scanArts text.data text.data.length 0)) [])
  · intro a ha
    exact (dedupeArts_find (artsOf (scanArts text.data text.data.length 0)) [] a
      (mem_sortArts ha)).2

/-- C5 (witness): the first-occurrence part of the theorem applied to a
concrete citation list. -/
theorem extract_prior_arts_spec_witness :
    (artsOf (scanArts "D1- EP0012345 Pub Date: 11/12/2013 and D1: XX99999 01/01/2000".data
        "D1- EP0012345 Pub Date: 11/12/2013 and D1: XX99999 01/01/2000".data.length 0)).find?
      (fun b => b.label == ("D1" : String)) = some ⟨"D1", "EP0012345", "11/12/2013"⟩ :=
  (extract_prior_arts_spec "D1- EP0012345 Pub Date: 11/12/2013 and D1: XX99999 01/01/2000").2
    ⟨"D1", "EP0012345", "11/12/2013"⟩ (by decide)

/-- C5 (counterexample): the returned list is NOT ordered by the label's
numeric suffix.  With citations `D2` then `D10`, Python's string sort puts
`"D10"` before `"D2"` (code-point order on the second character), while
suffix order would put `D2` (suffix 2) before `D10` (suffix 10). -/
theorem extract_prior_arts_cex :
    (extract_prior_arts "D2: US12345 01/01/2020\nD10: EP99999 02/02/2021").map PriorArt.label
      = ["D10", "D2"] := by decide

/-! ## C7: `prior_art_parser._trim_words` / `_polish_abstract_tail`
(`app/core/prior_art_parser.py` lines 254-275 and 278-308).

`int(len(x) * 0.35)` and `int(len(x) * 0.4)` are modelled as
`(35 * len) / 100` and `(2 * len) / 5` (exact rational floor); the
properties proved below do not depend on the threshold values. The
strings these functions receive are pre-stripped, so the `$` anchor of
the metadata-tail regex is modelled as end-of-string. -/

/-- Terminal punctuation `.`, `!`, `?` (the tuple in `cut.endswith`). -/
def isTermPunct (c : Char) : Bool := c = '.' || c = '!' || c = '?'

/-- Python `s.endswith((".", "!", "?"))` / `s[-1] in ".!?"`. -/
def endsPunct (l : List Char) : Bool :=
  match l.getLast? with
  | some c => isTermPunct c
  | none => false

/-- `re.findall(r"\S+", raw)`: maximal runs of non-whitespace. -/
def wordsAux : List Char → List Char → List (List Char)
  | [], acc => if acc.isEmpty then [] else [acc.reverse]
  | c :: t, acc =>
    if isPySpace c then
      if acc.isEmpty then wordsAux t [] else acc.reverse :: wordsAux t []
    else wordsAux t (c :: acc)

def wordsOf (l : List Char) : List (List Char) := wordsAux l []

/-- Number of `\S+` words in a string. -/
def wordCount (l : List Char) : Nat := (wordsOf l).length

/-- `" ".join(ws)`. -/
def joinWords : List (List Char) → List Char
  | [] => []
  | w :: rest =>
    match rest with
    | [] => w
    | _ :: _ => w ++ ' ' :: joinWords rest

/-- `re.search(r"[.!?](?:\s|$)", l)` and, on a match `m`, `m.end()`,
relative to position `idx`. -/
def findPunctWsEndAux : Nat → List Char → Option Nat
  | _, [] => none
  | idx, c :: t =>
    if isTermPunct c then
      match t with
      | [] => some (idx + 1)
      | d :: _ => if isPySpace d then some (idx + 2) else findPunctWsEndAux (idx + 1) t
    else findPunctWsEndAux (idx + 1) t

def findPunctWsEnd (l : List Char) : Option Nat := findPunctWsEndAux 0 l

/-- `max(l.rfind("."), l.rfind("!"), l.rfind("?"))`, `none` for `-1`. -/
def lastPunctIdxAux : Nat → Option Nat → List Char → Option Nat
  | _, best, [] => best
  | idx, best, c :: t =>
    lastPunctIdxAux (idx + 1) (if isTermPunct c then some idx else best) t

def lastPunctIdx (l : List Char) : Option Nat := lastPunctIdxAux 0 none l

/-- The back-cut fallback of `_trim_words`: cut at the last sentence end
when it lies past 35% of `cut`, else append a period. -/
def backCut (cut : List Char) : List Char :=
  match lastPunctIdx cut with
  | some bc =>
    if (35 * cut.length) / 100 ≤ bc then pyStrip (cut.take (bc + 1)) else cut ++ ['.']
  | none => cut ++ ['.']

/-- `re.sub(r"\s+", " ", text).strip()` (line 255). -/
def trimRaw (text : List Char) : List Char := pyStrip (collapseRuns isPySpace text)

/-- `" ".join(words[:max_words]).strip()` (line 260). -/
def trimCutOf (words : List (List Char)) (maxWords : Nat) : List Char :=
  pyStrip (joinWords (words.take maxWords))

/-- Lines 264-275: the ≤80-word tail probe searching `[.!?](?:\s|$)`,
falling back to `backCut`. -/
def trimTail (cut : List Char) (words : List (List Char)) (maxWords : Nat) : List Char :=
  if ((words.drop maxWords).take 80).isEmpty then backCut cut
  else
    match findPunctWsEnd (pyStrip (joinWords ((words.drop maxWords).take 80))) with
    | some e =>
      pyStrip (cut ++ ' ' ::
        pyStrip ((pyStrip (joinWords ((words.drop maxWords).take 80))).take e))
    | none => backCut cut

/-- `_trim_words(text, max_words)` (lines 254-275). -/
def trim_words (text : List Char) (maxWords : Nat) : List Char :=
  if (wordsOf (trimRaw text)).length ≤ maxWords then trimRaw text
  else
    if endsPunct (trimCutOf (wordsOf (trimRaw text)) maxWords) then
      trimCutOf (wordsOf (trimRaw text)) maxWords
    else trimTail (trimCutOf (wordsOf (trimRaw text)) maxWords) (wordsOf (trimRaw text)) maxWords

/-- Anchored-at-start-and-end check for `\s*\)?\s*$`. -/
def mTailClose (l : List Char) : Bool :=
  match l.dropWhile isPySpace with
  | [] => true
  | ')' :: v => (v.dropWhile isPySpace).isEmpty
  | _ => false

/-- `(?:\.\d+)?\s*\)?\s*$`. -/
def mTailOpt (l : List Char) : Bool :=
  mTailClose l ||
    (match l with
     | '.' :: t =>
       match t.takeWhile isDigitCh with
       | [] => false
       | _ :: _ => mTailClose (t.dropWhile isDigitCh)
     | _ => false)

/-- `[\d\s]*(?:\.\d+)?\s*\)?\s*$` via backtracking disjunction. -/
def mTailRest : List Char → Bool
  | [] => mTailOpt []
  | c :: t =>
    mTailOpt (c :: t) || (if isDigitCh c || isPySpace c then mTailRest t else false)

/-- Does the suffix match `At\s*\(\s*\d[\d\s]*(?:\.\d+)?\s*\)?\s*$`
(case-insensitively), anchored on both sides? -/
def mTailMatchAt : List Char → Bool
  | a :: b :: t2 =>
    if Char.toUpper a = 'A' && Char.toUpper b = 'T' then
      match t2.dropWhile isPySpace with
      | '(' :: t3 =>
        (match t3.dropWhile isPySpace with
         | d :: t4 => if isDigitCh d then mTailRest t4 else false
         | [] => false)
      | _ => false
    else false
  | _ => false

/-- `re.search(...).start()` for the metadata-tail pattern: the leftmost
position with a `\b` boundary where the suffix matches. -/
def mTailStartAux (l : List Char) : Nat → Nat → Option Nat
  | 0, _ => none
  | Nat.succ fuel, i =>
    if i < l.length then
      if boundaryOk l i && mTailMatchAt (l.drop i) then some i
      else mTailStartAux l fuel (i + 1)
    else none

def mTailStart (l : List Char) : Option Nat := mTailStartAux l (l.length + 1) 0

/-- `.rstrip(" ,;")` (line 286). -/
def rstripPunctSp (l : List Char) : List Char :=
  l.rdropWhile (fun c => c = ' ' || c = ',' || c = ';')

/-- `re.sub(r"(?:\s+[A-Za-z])+$", "", t)` on the reversed list: strip
trailing single-letter tokens, each preceded by whitespace. -/
def stripSinglesRevAux : Nat → List Char → List Char
  | 0, l => l
  | Nat.succ fuel, l =>
    match l with
    | L :: c :: rest =>
      if isAsciiAlpha L && isPySpace c then
        stripSinglesRevAux fuel ((c :: rest).dropWhile isPySpace)
      else l
    | _ => l

def stripTrailSingles (l : List Char) : List Char :=
  (stripSinglesRevAux l.length l.reverse).reverse

/-- Length of the last `\b\w+\b` token of `t` (0 when there is none):
`len(last_word)` at line 300. -/
def lastWordLenAux : Nat → Nat → List Char → Nat
  | cur, last, [] => if 0 < cur then cur else last
  | cur, last, c :: t =>
    if isWordCh c then lastWordLenAux (cur + 1) last t
    else lastWordLenAux 0 (if 0 < cur then cur else last) t

def lastWordLen (l : List Char) : Nat := lastWordLenAux 0 0 l

/-- `re.search(r"\(\d{2,4}\)", t)` as a Bool. -/
def hasEnumParen : List Char → Bool
  | [] => false
  | c :: t =>
    (if c = '(' then
       (if 2 ≤ (t.takeWhile isDigitCh).length && (t.takeWhile isDigitCh).length ≤ 4 then
          match t.dropWhile isDigitCh with
          | ')' :: _ => true
          | _ => false
        else false)
     else false) || hasEnumParen t

/-- `re.search(r";\s*\([A-Za-z0-9,]+\)\s*[A-Za-z]", t)` as a Bool. -/
def hasEnumSemi : List Char → Bool
  | [] => false
  | c :: t =>
    (if c = ';' then
       match t.dropWhile isPySpace with
       | '(' :: u =>
         (match u.takeWhile (fun x => isAlnumCh x || x = ',') with
          | [] => false
          | _ :: _ =>
            match u.dropWhile (fun x => isAlnumCh x || x = ',') with
            | ')' :: v =>
              (match v.dropWhile isPySpace with
               | w :: _ => isAsciiAlpha w
               | [] => false)
            | _ => false)
       | _ => false
     else false) || hasEnumSemi t

/-- Lines 284-286: drop the patent-metadata tail when present. -/
def polishCutTail (t0 : List Char) : List Char :=
  match mTailStart t0 with
  | some i => rstripPunctSp (t0.take i)
  | none => t0

/-- Lines 302-305: cut back to the last full sentence when it covers at
least 40% of `t`, else fall through to appending a period. -/
def polishSentenceCut (t2 : List Char) : List Char :=
  match lastPunctIdx t2 with
  | some cut =>
    if (2 * t2.length) / 5 ≤ cut then pyStrip (t2.take (cut + 1)) else t2 ++ ['.']
  | none => t2 ++ ['.']

/-- Lines 291-308 of `_polish_abstract_tail`, after the residue removal. -/
def polishStep2 (t2 : List Char) : List Char :=
  if t2.isEmpty then []
  else if endsPunct t2 then t2
  else if hasEnumParen t2 || hasEnumSemi t2 then t2 ++ ['.']
  else if lastWordLen t2 ≤ 2 then polishSentenceCut t2
  else t2 ++ ['.']

/-- `_polish_abstract_tail(text)` (lines 278-308). -/
def polish_abstract_tail (text : List Char) : List Char :=
  if (pyStrip text).isEmpty then []
  else polishStep2 (pyStrip (stripTrailSingles (polishCutTail (pyStrip text))))

/-- State-passing word counter: counts the `\S+` runs of `l`, `inW`
recording whether a run is already open. -/
def wcAux : Bool → List Char → Nat
  | _, [] => 0
  | inW, c :: t =>
    if isPySpace c then wcAux false t
    else (if inW then 0 else 1) + wcAux true t

/-- The `inW` state after scanning a list. -/
def stateAfter : Bool → List Char → Bool
  | s, [] => s
  | _, c :: t => stateAfter (!isPySpace c) t

theorem wcAux_append (b : List Char) :
    ∀ (a : List Char) (s : Bool), wcAux s (a ++ b) = wcAux s a + wcAux (stateAfter s a) b := by
  intro a
  induction a with
  | nil => intro s; simp [wcAux, stateAfter]
  | cons c t ih =>
    intro s
    have hst : stateAfter s (c :: t) = stateAfter (!isPySpace c) t := rfl
    show wcAux s (c :: (t ++ b)) = wcAux s (c :: t) + wcAux (stateAfter s (c :: t)) b
    cases h : isPySpace c with
    | false =>
      rw [hst, h]
      simp only [wcAux, h, Bool.false_eq_true, if_false, Bool.not_false]
      rw [ih true]
      omega
    | true =>
      rw [hst, h]
      simp only [wcAux, h, if_true, Bool.not_true]
      exact ih false

theorem wcAux_true_le (l : List Char) : wcAux true l ≤ wcAux false l := by
  induction l with
  | nil => exact Nat.le_refl 0
  | cons c t ih =>
    cases h : isPySpace c with
    | false => simp [wcAux, h]
    | true => simp only [wcAux, h, if_true]; exact Nat.le_refl _

theorem wcAux_any_le (s : Bool) (l : List Char) : wcAux s l ≤ wcAux false l := by
  cases s with
  | false => exact Nat.le_refl _
  | true => exact wcAux_true_le l

theorem wc_append_le (a b : List Char) :
    wcAux false (a ++ b) ≤ wcAux false a + wcAux false b := by
  rw [wcAux_append b a false]
  exact Nat.add_le_add_left (wcAux_any_le _ b) _

theorem wc_prefix_le {a l : List Char} (h : a <+: l) :
    wcAux false a ≤ wcAux false l := by
  obtain ⟨b, rfl⟩ := h
  rw [wcAux_append b a false]
  exact Nat.le_add_right _ _

theorem wc_take_le (n : Nat) (l : List Char) : wcAux false (l.take n) ≤ wcAux false l :=
  wc_prefix_le (List.take_prefix n l)

theorem wc_dropWhile_ws (l : List Char) :
    wcAux false (l.dropWhile isPySpace) = wcAux false l := by
  induction l with
  | nil => rfl
  | cons c t ih =>
    cases h : isPySpace c with
    | false => simp [List.dropWhile_cons, h]
    | true => simp [List.dropWhile_cons, h, ih, wcAux]

theorem wc_pyStrip_le (l : List Char) : wcAux false (pyStrip l) ≤ wcAux false l := by
  have h1 : wcAux false (pyStrip l) ≤ wcAux false (l.dropWhile isPySpace) :=
    wc_prefix_le (List.rdropWhile_prefix isPySpace (l.dropWhile isPySpace))
  rw [wc_dropWhile_ws] at h1
  exact h1

theorem wc_true_all_nonws {l : List Char} (h : ∀ c ∈ l, isPySpace c = false) :
    wcAux true l = 0 := by
  induction l with
  | nil => rfl
  | cons c t ih =>
    have hc := h c (List.mem_cons_self c t)
    have ht := ih fun d hd => h d (List.mem_cons_of_mem _ hd)
    simp [wcAux, hc, ht]

theorem wc_false_all_nonws_le {l : List Char} (h : ∀ c ∈ l, isPySpace c = false) :
    wcAux false l ≤ 1 := by
  cases l with
  | nil => exact Nat.zero_le 1
  | cons c t =>
    have hc := h c (List.mem_cons_self c t)
    have ht : wcAux true t = 0 := wc_true_all_nonws fun d hd => h d (List.mem_cons_of_mem _ hd)
    simp [wcAux, hc, ht]

theorem wc_joinWords_le :
    ∀ ls : List (List Char), (∀ w ∈ ls, ∀ c ∈ w, isPySpace c = false) →
      wcAux false (joinWords ls) ≤ ls.length := by
  intro ls
  induction ls with
  | nil => intro _; exact Nat.zero_le 0
  | cons w rest ih =>
    intro h
    cases rest with
    | nil =>
      show wcAux false w ≤ 1
      exact wc_false_all_nonws_le (h w (List.mem_cons_self _ _))
    | cons r rs =>
      show wcAux false (w ++ ' ' :: joinWords (r :: rs)) ≤ (w :: r :: rs).length
      have h1 := wc_append_le w (' ' :: joinWords (r :: rs))
      have h2 : wcAux false (' ' :: joinWords (r :: rs)) = wcAux false (joinWords (r :: rs)) := by
        simp [wcAux, show isPySpace ' ' = true from rfl]
      have h3 : wcAux false (joinWords (r :: rs)) ≤ (r :: rs).length :=
        ih fun w' hw' => h w' (List.mem_cons_of_mem _ hw')
      have h4 : wcAux false w ≤ 1 := wc_false_all_nonws_le (h w (List.mem_cons_self _ _))
      simp only [List.length_cons] at h3 ⊢
      omega

theorem wordsAux_nonws :
    ∀ (l acc : List Char), (∀ c ∈ acc, isPySpace c = false) →
      ∀ w ∈ wordsAux l acc, ∀ c ∈ w, isPySpace c = false := by
  intro l
  induction l with
  | nil =>
    intro acc hacc w hw
    by_cases he : acc.isEmpty
    · simp [wordsAux, he] at hw
    · simp [wordsAux, he] at hw
      subst hw
      intro c hc
      exact hacc c (List.mem_reverse.mp hc)
  | cons c t ih =>
    intro acc hacc w hw
    cases h : isPySpace c with
    | true =>
      by_cases he : acc.isEmpty
      · simp only [wordsAux, h, if_true, he] at hw
        exact ih [] (fun d hd => absurd hd (List.not_mem_nil d)) w hw
      · simp only [wordsAux, h, if_true, he, Bool.false_eq_true, if_false] at hw
        rcases List.mem_cons.mp hw with hw | hw
        · subst hw
          intro d hd
          exact hacc d (List.mem_reverse.mp hd)
        · exact ih [] (fun d hd => absurd hd (List.not_mem_nil d)) w hw
    | false =>
      simp only [wordsAux, h, Bool.false_eq_true, if_false] at hw
      refine ih (c :: acc) ?_ w hw
      intro d hd
      rcases List.mem_cons.mp hd with hd | hd
      · subst hd; exact h
      · exact hacc d hd

theorem wordsOf_nonws {l : List Char} : ∀ w ∈ wordsOf l, ∀ c ∈ w, isPySpace c = false :=
  wordsAux_nonws l [] fun d hd => absurd hd (List.not_mem_nil d)

theorem wordsAux_length :
    ∀ (l acc : List Char),
      (wordsAux l acc).length =
        wcAux (!acc.isEmpty) l + (if acc.isEmpty then 0 else 1) := by
  intro l
  induction l with
  | nil =>
    intro acc
    by_cases he : acc.isEmpty
    · simp [wordsAux, wcAux, he]
    · simp [wordsAux, wcAux, he]
  | cons c t ih =>
    intro acc
    cases h : isPySpace c with
    | true =>
      by_cases he : acc.isEmpty
      · simp only [wordsAux, h, if_true, he]
        rw [ih []]
        simp [wcAux, h, he]
      · simp only [wordsAux, h, if_true, he, Bool.false_eq_true, if_false, List.length_cons]
        rw [ih []]
        simp [wcAux, h, he]
    | false =>
      simp only [wordsAux, h, Bool.false_eq_true, if_false]
      rw [ih (c :: acc)]
      by_cases he : acc.isEmpty
      · simp [wcAux, h, he]
        omega
      · simp [wcAux, h, he]

theorem wordCount_eq_wcAux (l : List Char) : wordCount l = wcAux false l := by
  have h := wordsAux_length l []
  simpa [wordCount, wordsOf] using h

theorem isTermPunct_not_ws {c : Char} (h : isTermPunct c = true) : isPySpace c = false := by
  have h' : (c = '.' ∨ c = '!') ∨ c = '?' := by simpa [isTermPunct] using h
  rcases h' with (rfl | rfl) | rfl <;> decide

theorem endsPunct_eq_of_getLast {l : List Char} {q : Char} (hg : l.getLast? = some q) :
    endsPunct l = isTermPunct q := by
  unfold endsPunct
  rw [hg]

theorem endsPunct_getLast {l : List Char} (h : endsPunct l = true) :
    ∃ q, l.getLast? = some q ∧ isTermPunct q = true := by
  cases hg : l.getLast? with
  | none =>
    unfold endsPunct at h
    rw [hg] at h
    exact absurd h (by decide)
  | some q =>
    refine ⟨q, rfl, ?_⟩
    unfold endsPunct at h
    rw [hg] at h
    exact h

theorem endsPunct_ne_nil {l : List Char} (h : endsPunct l = true) : l ≠ [] := by
  intro he
  subst he
  exact absurd h (by decide)

theorem endsPunct_append {a b : List Char} (h : endsPunct b = true) :
    endsPunct (a ++ b) = true := by
  obtain ⟨q, hg, hq⟩ := endsPunct_getLast h
  have h2 : (a ++ b).getLast? = some q := by
    rw [List.getLast?_append_of_ne_nil a (endsPunct_ne_nil h), hg]
  rw [endsPunct_eq_of_getLast h2]
  exact hq

theorem endsPunct_pyStrip {l : List Char} (h : endsPunct l = true) :
    endsPunct (pyStrip l) = true := by
  obtain ⟨q, hg, hq⟩ := endsPunct_getLast h
  have hdwne : l.dropWhile isPySpace ≠ [] := by
    intro he
    have hall := List.dropWhile_eq_nil_iff.mp he
    have hqmem : q ∈ l := List.mem_of_mem_getLast? (Option.mem_def.mpr hg)
    have hws := hall q hqmem
    rw [isTermPunct_not_ws hq] at hws
    exact absurd hws (by decide)
  have hgdw : (l.dropWhile isPySpace).getLast? = some q := by
    have h2 : (l.takeWhile isPySpace ++ l.dropWhile isPySpace).getLast? =
        (l.dropWhile isPySpace).getLast? :=
      List.getLast?_append_of_ne_nil _ hdwne
    rw [List.takeWhile_append_dropWhile] at h2
    rw [← h2]
    exact hg
  have hfix : (l.dropWhile isPySpace).rdropWhile isPySpace = l.dropWhile isPySpace := by
    rw [List.rdropWhile_eq_self_iff]
    intro hl
    have h3 := List.getLast?_eq_getLast (l.dropWhile isPySpace) hl
    rw [hgdw] at h3
    have h4 : q = (l.dropWhile isPySpace).getLast hl := Option.some.inj h3
    rw [← h4]
    rw [isTermPunct_not_ws hq]
    exact fun hh => absurd hh (by decide)
  show endsPunct ((l.dropWhile isPySpace).rdropWhile isPySpace) = true
  rw [hfix, endsPunct_eq_of_getLast hgdw]
  exact hq

theorem rdropWhile_cons_of_ne {p : Char → Bool} {x : List Char} (c : Char)
    (h : x.rdropWhile p ≠ []) : (c :: x).rdropWhile p = c :: x.rdropWhile p := by
  cases e : x.reverse.dropWhile p with
  | nil =>
    exfalso
    apply h
    unfold List.rdropWhile
    rw [e]
    rfl
  | cons d ds =>
    unfold List.rdropWhile
    rw [show (c :: x).reverse = x.reverse ++ [c] from by simp, List.dropWhile_append, e]
    simp

theorem rdropWhile_split {x : List Char}
    (h : (x.dropWhile isPySpace).rdropWhile isPySpace ≠ []) :
    x.rdropWhile isPySpace =
      x.takeWhile isPySpace ++ (x.dropWhile isPySpace).rdropWhile isPySpace := by
  conv_lhs => rw [← List.takeWhile_append_dropWhile isPySpace x]
  cases e : (x.dropWhile isPySpace).reverse.dropWhile isPySpace with
  | nil =>
    exfalso
    apply h
    unfold List.rdropWhile
    rw [e]
    rfl
  | cons d ds =>
    unfold List.rdropWhile
    rw [List.reverse_append, List.dropWhile_append, e]
    simp

theorem endsPunct_pyStrip_cons {c : Char} {x : List Char}
    (h : endsPunct (pyStrip x) = true) : endsPunct (pyStrip (c :: x)) = true := by
  cases hc : isPySpace c with
  | true =>
    have hsame : pyStrip (c :: x) = pyStrip x := by
      show ((c :: x).dropWhile isPySpace).rdropWhile isPySpace = _
      rw [List.dropWhile_cons, hc]
      simp only [if_true]
      rfl
    rw [hsame]
    exact h
  | false =>
    have hne : (x.dropWhile isPySpace).rdropWhile isPySpace ≠ [] := fun he =>
      endsPunct_ne_nil h he
    have h1 : pyStrip (c :: x) = (c :: x).rdropWhile isPySpace := by
      show ((c :: x).dropWhile isPySpace).rdropWhile isPySpace = _
      rw [List.dropWhile_cons, hc]
      simp only [Bool.false_eq_true, if_false]
    have hx : x.rdropWhile isPySpace ≠ [] := by
      intro he
      have hall := List.rdropWhile_eq_nil_iff.mp he
      have hdnil : x.dropWhile isPySpace = [] := List.dropWhile_eq_nil_iff.mpr hall
      apply hne
      rw [hdnil]
      rfl
    have h2 := rdropWhile_cons_of_ne (p := isPySpace) c hx
    have h3 := rdropWhile_split (x := x) hne
    rw [h1, h2, h3]
    have h4 : c :: (x.takeWhile isPySpace ++ (x.dropWhile isPySpace).rdropWhile isPySpace)
        = (c :: x.takeWhile isPySpace) ++ (x.dropWhile isPySpace).rdropWhile isPySpace := by
      simp
    rw [h4]
    exact endsPunct_append h

theorem pyStrip_punct_ws {c d : Char} (hc : isTermPunct c = true) (hd : isPySpace d = true) :
    pyStrip [c, d] = [c] := by
  have hc' : isPySpace c = false := isTermPunct_not_ws hc
  show ([c, d].dropWhile isPySpace).rdropWhile isPySpace = [c]
  rw [List.dropWhile_cons, hc']
  simp only [Bool.false_eq_true, if_false]
  have h1 : ([c] ++ [d]).rdropWhile isPySpace = [c].rdropWhile isPySpace :=
    List.rdropWhile_concat_pos (p := isPySpace) (l := [c]) d hd
  have h2 : (([] : List Char) ++ [c]).rdropWhile isPySpace = [] ++ [c] :=
    List.rdropWhile_concat_neg (p := isPySpace) (l := []) c (by simp [hc'])
  calc ([c, d] : List Char).rdropWhile isPySpace
      = [c].rdropWhile isPySpace := h1
    _ = [c] := by simpa using h2

theorem findPunctWsEndAux_strip :
    ∀ (l : List Char) (idx e : Nat), findPunctWsEndAux idx l = some e →
      idx < e ∧ endsPunct (pyStrip (l.take (e - idx))) = true := by
  intro l
  induction l with
  | nil => intro idx e h; exact absurd h (by simp [findPunctWsEndAux])
  | cons c t ih =>
    intro idx e h
    cases hp : isTermPunct c with
    | true =>
      cases t with
      | nil =>
        have he : e = idx + 1 := by
          simp only [findPunctWsEndAux, hp, if_true] at h
          exact (Option.some.inj h).symm
        subst he
        refine ⟨by omega, ?_⟩
        have h1 : idx + 1 - idx = 1 := by omega
        rw [h1]
        have h2 : endsPunct [c] = true := by
          rw [endsPunct_eq_of_getLast (show [c].getLast? = some c from rfl)]
          exact hp
        exact endsPunct_pyStrip h2
      | cons d t' =>
        cases hwd : isPySpace d with
        | true =>
          have he : e = idx + 2 := by
            simp only [findPunctWsEndAux, hp, if_true, hwd] at h
            exact (Option.some.inj h).symm
          subst he
          refine ⟨by omega, ?_⟩
          have h1 : idx + 2 - idx = 2 := by omega
          rw [h1]
          show endsPunct (pyStrip [c, d]) = true
          rw [pyStrip_punct_ws hp hwd]
          rw [endsPunct_eq_of_getLast (show [c].getLast? = some c from rfl)]
          exact hp
        | false =>
          have h' : findPunctWsEndAux (idx + 1) (d :: t') = some e := by
            simpa only [findPunctWsEndAux, hp, if_true, hwd, Bool.false_eq_true,
              if_false] using h
          obtain ⟨hlt, hep⟩ := ih (idx + 1) e h'
          refine ⟨by omega, ?_⟩
          have h2 : e - idx = (e - (idx + 1)) + 1 := by omega
          rw [h2, List.take_succ_cons]
          exact endsPunct_pyStrip_cons hep
    | false =>
      have h' : findPunctWsEndAux (idx + 1) t = some e := by
        simpa only [findPunctWsEndAux, hp, Bool.false_eq_true, if_false] using h
      obtain ⟨hlt, hep⟩ := ih (idx + 1) e h'
      refine ⟨by omega, ?_⟩
      have h2 : e - idx = (e - (idx + 1)) + 1 := by omega
      rw [h2, List.take_succ_cons]
      exact endsPunct_pyStrip_cons hep

theorem lastPunctIdxAux_spec :
    ∀ (l : List Char) (idx : Nat) (best : Option Nat) (bc : Nat),
      lastPunctIdxAux idx best l = some bc →
      best = some bc ∨ (idx ≤ bc ∧ ∃ c, l[bc - idx]? = some c ∧ isTermPunct c = true) := by
  intro l
  induction l with
  | nil => intro idx best bc h; exact Or.inl h
  | cons c t ih =>
    intro idx best bc h
    have h' : lastPunctIdxAux (idx + 1) (if isTermPunct c then some idx else best) t =
        some bc := h
    rcases ih (idx + 1) _ bc h' with h1 | ⟨h2, d, hd, hpd⟩
    · cases hp : isTermPunct c with
      | true =>
        rw [hp] at h1
        simp only [if_true] at h1
        have hbc : idx = bc := Option.some.inj h1
        subst hbc
        right
        refine ⟨Nat.le_refl _, c, ?_, hp⟩
        simp
      | false =>
        rw [hp] at h1
        simp only [Bool.false_eq_true, if_false] at h1
        exact Or.inl h1
    · right
      refine ⟨by omega, d, ?_, hpd⟩
      have h3 : bc - idx = (bc - (idx + 1)) + 1 := by omega
      rw [h3]
      simpa using hd

theorem lastPunctIdx_spec {l : List Char} {bc : Nat} (h : lastPunctIdx l = some bc) :
    ∃ c, l[bc]? = some c ∧ isTermPunct c = true := by
  rcases lastPunctIdxAux_spec l 0 none bc h with h1 | ⟨_, d, hd, hpd⟩
  · exact absurd h1 (by simp)
  · exact ⟨d, by simpa using hd, hpd⟩

theorem endsPunct_take_succ {l : List Char} {j : Nat} {c : Char}
    (h : l[j]? = some c) (hp : isTermPunct c = true) :
    endsPunct (l.take (j + 1)) = true := by
  have ht : l.take (j + 1) = l.take j ++ [c] := by
    rw [List.take_succ, h]
    rfl
  rw [ht, endsPunct_eq_of_getLast (List.getLast?_concat _)]
  exact hp

theorem endsPunct_backCut (cut : List Char) : endsPunct (backCut cut) = true := by
  unfold backCut
  cases hl : lastPunctIdx cut with
  | none => exact endsPunct_append (by decide)
  | some bc =>
    show endsPunct
      (if (35 * cut.length) / 100 ≤ bc then pyStrip (cut.take (bc + 1)) else cut ++ ['.']) = true
    obtain ⟨c, hc, hpc⟩ := lastPunctIdx_spec hl
    by_cases hth : (35 * cut.length) / 100 ≤ bc
    · rw [if_pos hth]
      exact endsPunct_pyStrip (endsPunct_take_succ hc hpc)
    · rw [if_neg hth]
      exact endsPunct_append (by decide)

theorem wc_backCut_le (cut : List Char) :
    wcAux false (backCut cut) ≤ wcAux false cut + 1 := by
  unfold backCut
  cases hl : lastPunctIdx cut with
  | none =>
    calc wcAux false (cut ++ ['.'])
        ≤ wcAux false cut + wcAux false ['.'] := wc_append_le _ _
      _ = wcAux false cut + 1 := rfl
  | some bc =>
    show wcAux false
      (if (35 * cut.length) / 100 ≤ bc then pyStrip (cut.take (bc + 1)) else cut ++ ['.']) ≤
        wcAux false cut + 1
    by_cases hth : (35 * cut.length) / 100 ≤ bc
    · rw [if_pos hth]
      have h1 := wc_pyStrip_le (cut.take (bc + 1))
      have h2 := wc_take_le (bc + 1) cut
      omega
    · rw [if_neg hth]
      have h1 := wc_append_le cut ['.']
      have h2 : wcAux false ['.'] = 1 := rfl
      omega

theorem trimTail_endsPunct (cut : List Char) (words : List (List Char)) (maxWords : Nat) :
    endsPunct (trimTail cut words maxWords) = true := by
  unfold trimTail
  by_cases hte : ((words.drop maxWords).take 80).isEmpty
  · rw [if_pos hte]
    exact endsPunct_backCut cut
  · rw [if_neg hte]
    cases hf : findPunctWsEnd (pyStrip (joinWords ((words.drop maxWords).take 80))) with
    | none => exact endsPunct_backCut cut
    | some e =>
      obtain ⟨_, hep⟩ := findPunctWsEndAux_strip _ 0 e hf
      have he0 : e - 0 = e := rfl
      rw [he0] at hep
      apply endsPunct_pyStrip
      have h4 : cut ++ ' ' ::
          pyStrip ((pyStrip (joinWords ((words.drop maxWords).take 80))).take e) =
          (cut ++ [' ']) ++
            pyStrip ((pyStrip (joinWords ((words.drop maxWords).take 80))).take e) := by
        simp
      rw [h4]
      exact endsPunct_append hep

theorem wc_trimTail_le (cut : List Char) (words : List (List Char)) (maxWords : Nat)
    (hw : ∀ w ∈ words, ∀ c ∈ w, isPySpace c = false)
    (hcut : wcAux false cut ≤ maxWords) :
    wcAux false (trimTail cut words maxWords) ≤ maxWords + 80 := by
  unfold trimTail
  by_cases hte : ((words.drop maxWords).take 80).isEmpty
  · rw [if_pos hte]
    have := wc_backCut_le cut
    omega
  · rw [if_neg hte]
    cases hf : findPunctWsEnd (pyStrip (joinWords ((words.drop maxWords).take 80))) with
    | none =>
      show wcAux false (backCut cut) ≤ maxWords + 80
      have := wc_backCut_le cut
      omega
    | some e =>
      show wcAux false (pyStrip (cut ++ ' ' ::
        pyStrip ((pyStrip (joinWords ((words.drop maxWords).take 80))).take e))) ≤
          maxWords + 80
      have h1 := wc_pyStrip_le (cut ++ ' ' ::
        pyStrip ((pyStrip (joinWords ((words.drop maxWords).take 80))).take e))
      have h2 := wc_append_le cut (' ' ::
        pyStrip ((pyStrip (joinWords ((words.drop maxWords).take 80))).take e))
      have h3 : wcAux false (' ' ::
          pyStrip ((pyStrip (joinWords ((words.drop maxWords).take 80))).take e)) =
          wcAux false
            (pyStrip ((pyStrip (joinWords ((words.drop maxWords).take 80))).take e)) := by
        simp [wcAux, show isPySpace ' ' = true from rfl]
      have h4 := wc_pyStrip_le ((pyStrip (joinWords ((words.drop maxWords).take 80))).take e)
      have h5 := wc_take_le e (pyStrip (joinWords ((words.drop maxWords).take 80)))
      have h6 := wc_pyStrip_le (joinWords ((words.drop maxWords).take 80))
      have h7 : wcAux false (joinWords ((words.drop maxWords).take 80)) ≤
          ((words.drop maxWords).take 80).length := by
        apply wc_joinWords_le
        intro w hwm
        exact hw w (((List.take_sublist _ _).trans (List.drop_sublist _ _)).subset hwm)
      have h8 : ((words.drop maxWords).take 80).length ≤ 80 := by
        rw [List.length_take]
        exact Nat.min_le_left _ _
      omega

theorem endsPunct_polishSentenceCut (t2 : List Char) :
    endsPunct (polishSentenceCut t2) = true := by
  unfold polishSentenceCut
  cases hl : lastPunctIdx t2 with
  | none => exact endsPunct_append (by decide)
  | some cu =>
    show endsPunct
      (if (2 * t2.length) / 5 ≤ cu then pyStrip (t2.take (cu + 1)) else t2 ++ ['.']) = true
    obtain ⟨c, hc, hpc⟩ := lastPunctIdx_spec hl
    by_cases hth : (2 * t2.length) / 5 ≤ cu
    · rw [if_pos hth]
      exact endsPunct_pyStrip (endsPunct_take_succ hc hpc)
    · rw [if_neg hth]
      exact endsPunct_append (by decide)

theorem polishStep2_spec (t2 : List Char) :
    polishStep2 t2 = [] ∨ endsPunct (polishStep2 t2) = true := by
  unfold polishStep2
  by_cases h0 : t2.isEmpty
  · rw [if_pos h0]
    exact Or.inl rfl
  · rw [if_neg h0]
    by_cases h1 : endsPunct t2
    · rw [if_pos h1]
      exact Or.inr h1
    · rw [if_neg h1]
      by_cases h2 : hasEnumParen t2 || hasEnumSemi t2
      · rw [if_pos h2]
        exact Or.inr (endsPunct_append (by decide))
      · rw [if_neg h2]
        by_cases h3 : lastWordLen t2 ≤ 2
        · rw [if_pos h3]
          exact Or.inr (endsPunct_polishSentenceCut t2)
        · rw [if_neg h3]
          exact Or.inr (endsPunct_append (by decide))

/-- C7: the spec claims abstract extraction never returns more words than
its word cap and truncated output ends with terminal punctuation or an
enumerated tail. The cap part is FALSE as stated (see
`trim_words_cap_cex`: the tail probe of `_trim_words` may append up to 80
further words past `max_words` to finish a sentence). Amended property,
proved here: (1) `_trim_words` returns at most `max_words + 80` words;
(2) whenever the input has more than `max_words` words (i.e. truncation
happens), the returned text ends with `.`, `!` or `?` — on every path,
including the enumerated-tail and back-cut fallbacks; (3)
`_polish_abstract_tail` always returns either the empty string or a
string ending with terminal punctuation. -/
theorem trim_words_polish_spec :
    (∀ (text : List Char) (maxWords : Nat),
        wordCount (trim_words text maxWords) ≤ maxWords + 80) ∧
    (∀ (text : List Char) (maxWords : Nat),
        maxWords < (wordsOf (trimRaw text)).length →
        endsPunct (trim_words text maxWords) = true) ∧
    (∀ text : List Char,
        polish_abstract_tail text = [] ∨ endsPunct (polish_abstract_tail text) = true) := by
  refine ⟨?_, ?_, ?_⟩
  · intro text maxWords
    rw [wordCount_eq_wcAux]
    unfold trim_words
    by_cases h1 : (wordsOf (trimRaw text)).length ≤ maxWords
    · rw [if_pos h1]
      have h2 : wcAux false (trimRaw text) = (wordsOf (trimRaw text)).length :=
        (wordCount_eq_wcAux _).symm
      omega
    · rw [if_neg h1]
      have hw : ∀ w ∈ wordsOf (trimRaw text), ∀ c ∈ w, isPySpace c = false := wordsOf_nonws
      have hcut : wcAux false (trimCutOf (wordsOf (trimRaw text)) maxWords) ≤ maxWords := by
        unfold trimCutOf
        have ha := wc_pyStrip_le (joinWords ((wordsOf (trimRaw text)).take maxWords))
        have hb : wcAux false (joinWords ((wordsOf (trimRaw text)).take maxWords)) ≤
            ((wordsOf (trimRaw text)).take maxWords).length := by
          apply wc_joinWords_le
          intro w hwm
          exact hw w ((List.take_sublist _ _).subset hwm)
        have hc : ((wordsOf (trimRaw text)).take maxWords).length ≤ maxWords := by
          rw [List.length_take]
          exact Nat.min_le_left _ _
        omega
      by_cases h3 : endsPunct (trimCutOf (wordsOf (trimRaw text)) maxWords)
      · rw [if_pos h3]
        omega
      · rw [if_neg h3]
        exact wc_trimTail_le _ _ _ hw hcut
  · intro text maxWords htr
    unfold trim_words
    rw [if_neg (by omega)]
    by_cases h3 : endsPunct (trimCutOf (wordsOf (trimRaw text)) maxWords)
    · rw [if_pos h3]
      exact h3
    · rw [if_neg h3]
      exact trimTail_endsPunct _ _ _
  · intro text
    unfold polish_abstract_tail
    by_cases h0 : (pyStrip text).isEmpty
    · rw [if_pos h0]
      exact Or.inl rfl
    · rw [if_neg h0]
      exact polishStep2_spec _

theorem trim_words_polish_spec_witness :
    2 < (wordsOf (trimRaw ("a b c d. e".data))).length ∧
    endsPunct (trim_words ("a b c d. e".data) 2) = true :=
  ⟨by decide, trim_words_polish_spec.2.1 ("a b c d. e".data) 2 (by decide)⟩

/-- C7 counterexample to the word cap as stated: with a cap of 2 words,
`_trim_words("a b c d. e", 2)` returns `"a b c d."` — 4 words, because
the tail probe appends words beyond the cap until it completes a
sentence (up to 80 extra words). -/
theorem trim_words_cap_cex :
    trim_words ("a b c d. e".data) 2 = ("a b c d.".data) ∧
    wordCount (trim_words ("a b c d. e".data) 2) = 4 := by decide

end FerReply
